import Mathlib

/-! # Posting lists of the inverted index

A shallow embedding of `include/index/postings_data.tcc`: the count store of a
posting list, its merge, its point updates and lookups, its comparison
operators and its gap-encoded (de)serialisation.

Conventions of the embedding.

* `SecondaryKey` is an unsigned 64-bit integer; it is a `Nat` here and every
  arithmetic step the source performs on it is reduced `% 2 ^ 64` explicitly.
* `double` is an abstract type `W` together with the operations the source
  applies to it (`DoubleOps`); theorems quantify over every such `W`, and
  `halfOps` is a concrete instance on the multiples of one half, exact on the
  values used in the examples.
* The storage of `util::sparse_vector` is the list of its pairs, front first.
* Undefined behaviour (an out-of-range element access) and an exhausted or
  ill-typed stream are the `none` result of an `Option`.
-/

namespace MetaIndex

/-! ## Numeric types -/

/-- The number of values of `uint64_t`. -/
def U64 : Nat := 2 ^ 64

/-- The operations on `double` used by the posting list: the value-initialised
`double{}`, `operator+`, `static_cast<uint64_t>(double)` and
`static_cast<double>(uint64_t)`. -/
structure DoubleOps (W : Type) where
  zero : W
  add : W → W → W
  toU64 : W → Nat
  ofU64 : Nat → W

/-- A non-negative `double` that is a multiple of one half, held as its number
of halves; such values and their small sums are exactly representable. -/
structure Half where
  halves : Nat
  deriving DecidableEq, Repr

instance (n : Nat) : OfNat Half n := ⟨⟨2 * n⟩⟩

/-- The value 0.5. -/
def Half.half : Half := ⟨1⟩

/-- Exact model of `double` on the multiples of one half: addition is exact,
the cast to `uint64_t` truncates towards zero, the cast back is the inclusion
of the naturals. -/
def halfOps : DoubleOps Half where
  zero := 0
  add := fun a b => ⟨a.halves + b.halves⟩
  toU64 := fun a => a.halves / 2 % U64
  ofU64 := fun n => ⟨2 * n⟩

/-! ## Data model -/

/-- The `pair_t` of the source: `std::pair<SecondaryKey, double>`. -/
abbrev pair_t (W : Type) : Type := Nat × W

/-- The `count_t` of the source: `std::vector<pair_t>`. -/
abbrev count_t (W : Type) : Type := List (pair_t W)

/-- The class `postings_data<PrimaryKey, SecondaryKey>`: the primary key
`p_id_` and the count store `counts_` (the storage of a `sparse_vector`). -/
structure postings_data (P W : Type) where
  p_id_ : P
  counts_ : count_t W

/-- The representation tag `FeatureValue` of the codec: `uint64_t` or `double`. -/
inductive FeatureValue where
  | uint64_t
  | double
  deriving DecidableEq, Repr

/-- The failure of a lookup. -/
inductive LookupError where
  | NotFound
  deriving DecidableEq, Repr

/-! ## Library routines used by the source -/

/-- The loop of `std::lower_bound` with the comparator `searcher`
(`p.first < s`): `first` is the start of the remaining range, `len` its
length; the first argument bounds the number of iterations. The middle
position lies inside the storage whenever the range does. -/
def lower_bound_loop {W : Type} (v : count_t W) (s : Nat) : Nat → Nat → Nat → Nat
  | 0, first, _ => first
  | fuel + 1, first, len =>
    if len = 0 then first
    else
      match v.get? (first + len / 2) with
      | none => first
      | some p =>
        if p.1 < s then lower_bound_loop v s fuel (first + len / 2 + 1) (len - len / 2 - 1)
        else lower_bound_loop v s fuel first (len / 2)

/-- The call `std::lower_bound(v.begin(), v.begin() + last, s, searcher)`, as
the position it returns; the range length bounds the iterations, which halve it. -/
def lower_bound {W : Type} (v : count_t W) (last : Nat) (s : Nat) : Nat :=
  lower_bound_loop v s last 0 last

/-- The call `std::sort(begin, end, [](a, b) { return a.first < b.first; })`.
On key-unique input every correct sort returns this list. -/
def sort_by_first {W : Type} (v : count_t W) : count_t W :=
  v.insertionSort (fun a b => a.1 ≤ b.1)

/-! ## The count-store container `util::sparse_vector` -/

/-- Modelled from the spec: `sparse_vector::emplace_back`, which is missing
from the sources; "direct unsorted append". -/
def sparse_vector.emplace_back {W : Type} (v : count_t W) (p : pair_t W) : count_t W :=
  v ++ [p]

/-- Modelled from the spec: `sparse_vector::contents() const`, which is missing
from the sources; the read accessor hands out the stored sequence. -/
def sparse_vector.contents {W : Type} (v : count_t W) : count_t W := v

/-- Modelled from the spec: `sparse_vector::contents(sequence)`, which is
missing from the sources; "bulk replace-with-sort". -/
def sparse_vector.set_contents {W : Type} (_v : count_t W) (cont : count_t W) : count_t W :=
  sort_by_first cont

/-- Modelled from the spec: `sparse_vector::at`, which is missing from the
sources; "exact lookup; fails with NotFound if the key is absent". -/
def sparse_vector.at_ {W : Type} (v : count_t W) (s : Nat) : Except LookupError W :=
  match v.find? (fun p => p.1 == s) with
  | some p => .ok p.2
  | none => .error .NotFound

/-- Modelled from the spec: `sparse_vector::operator[]`, which is missing from
the sources, followed by an update `f` of the value it refers to: "if the key
is absent, inserts it" (value-initialised, at its place in the sorted
sequence), "if present" the existing entry is the one referred to. -/
def sparse_vector.subscript {W : Type} (D : DoubleOps W) (s : Nat) (f : W → W) :
    count_t W → count_t W
  | [] => [(s, f D.zero)]
  | (k, w) :: rest =>
    if k = s then (k, f w) :: rest
    else if s < k then (s, f D.zero) :: (k, w) :: rest
    else (k, w) :: sparse_vector.subscript D s f rest

/-! ## The stream collaborator -/

/-- One value of a compressed stream: an unsigned 64-bit integer or a double. -/
inductive stream_value (W : Type) where
  | uint (n : Nat)
  | real (w : W)
  deriving DecidableEq, Repr

/-- Modelled from the spec: `io::compressed_file_writer`, which is missing
from the sources; the values written so far, oldest first. -/
abbrev compressed_file_writer (W : Type) : Type := List (stream_value W)

/-- Modelled from the spec: `io::compressed_file_reader`, which is missing
from the sources; the values not yet read, next first. -/
abbrev compressed_file_reader (W : Type) : Type := List (stream_value W)

/-- Modelled from the spec: `compressed_file_writer::write(uint64_t)`. -/
def compressed_file_writer.write {W : Type} (writer : compressed_file_writer W) (n : Nat) :
    compressed_file_writer W :=
  writer ++ [stream_value.uint n]

/-- Modelled from the spec: `compressed_file_writer::write(double)`. -/
def compressed_file_writer.write_double {W : Type} (writer : compressed_file_writer W) (w : W) :
    compressed_file_writer W :=
  writer ++ [stream_value.real w]

/-- Modelled from the spec: `compressed_file_reader::next()`, "read next
unsigned 64-bit integer". -/
def compressed_file_reader.next {W : Type} :
    compressed_file_reader W → Option (Nat × compressed_file_reader W)
  | stream_value.uint n :: rest => some (n, rest)
  | _ => none

/-- Modelled from the spec: `compressed_file_reader::next_double()`, "read
next double". -/
def compressed_file_reader.next_double {W : Type} :
    compressed_file_reader W → Option (W × compressed_file_reader W)
  | stream_value.real w :: rest => some (w, rest)
  | _ => none

/-! ## `postings_data` -/

namespace postings_data

variable {P W : Type}

/-- The constructor `postings_data(PrimaryKey p_id)`: an empty count store. -/
def new (p_id : P) : postings_data P W := ⟨p_id, []⟩

/-- The member `primary_key()`. -/
def primary_key (x : postings_data P W) : P := x.p_id_

/-- The member `set_primary_key(new_key)`. -/
def set_primary_key (x : postings_data P W) (new_key : P) : postings_data P W :=
  { x with p_id_ := new_key }

/-- One iteration of the loop of `merge_with` over `other.counts_`: `it` is
the result of the binary search of the original range; the pair is appended
when `it == counts_.end()` or the keys differ, else its weight is added. -/
def merge_step (D : DoubleOps W) (orig_length : Nat) (counts : count_t W) (p : pair_t W) :
    count_t W :=
  match counts.get? (lower_bound counts orig_length p.1) with
  | none => sparse_vector.emplace_back counts p
  | some q =>
    if q.1 ≠ p.1 then sparse_vector.emplace_back counts p
    else counts.set (lower_bound counts orig_length p.1) (q.1, D.add q.2 p.2)

/-- The member `merge_with(other)`. -/
def merge_with (D : DoubleOps W) (self other : postings_data P W) : postings_data P W :=
  let orig_length := self.counts_.length
  let counts := other.counts_.foldl (merge_step D orig_length) self.counts_
  if counts.length > orig_length then { self with counts_ := sort_by_first counts }
  else { self with counts_ := counts }

/-- The member `increase_count(s_id, amount)`: `counts_[s_id] += amount`. -/
def increase_count (D : DoubleOps W) (x : postings_data P W) (s_id : Nat) (amount : W) :
    postings_data P W :=
  { x with counts_ := sparse_vector.subscript D s_id (fun w => D.add w amount) x.counts_ }

/-- The member `count(s_id)`: `counts_.at(s_id)`. -/
def count (x : postings_data P W) (s_id : Nat) : Except LookupError W :=
  sparse_vector.at_ x.counts_ s_id

/-- The member `counts()`: `counts_.contents()`. -/
def counts (x : postings_data P W) : count_t W :=
  sparse_vector.contents x.counts_

/-- The member `set_counts(const count_t&)`: `counts_.contents(counts)`. -/
def set_counts (x : postings_data P W) (cs : count_t W) : postings_data P W :=
  { x with counts_ := sparse_vector.set_contents x.counts_ cs }

/-- The member `set_counts(InputIterator begin, InputIterator end)`: every
element of the range is passed to `counts_.emplace_back`. -/
def set_counts_range (x : postings_data P W) (range : List (pair_t W)) : postings_data P W :=
  { x with counts_ := range.foldl sparse_vector.emplace_back x.counts_ }

/-- The member `operator<`. -/
def op_lt [LinearOrder P] (x other : postings_data P W) : Bool :=
  decide (x.primary_key < other.primary_key)

/-- The free function `operator==`. -/
def op_eq [LinearOrder P] (lhs rhs : postings_data P W) : Bool :=
  decide (lhs.primary_key = rhs.primary_key)

/-- The branch on `std::is_same<FeatureValue, uint64_t>` of `write_compressed`. -/
def write_weight (D : DoubleOps W) (tag : FeatureValue) (writer : compressed_file_writer W)
    (w : W) : compressed_file_writer W :=
  match tag with
  | FeatureValue.uint64_t => writer.write (D.toU64 w)
  | FeatureValue.double => writer.write_double w

/-- The `std::accumulate` of `write_compressed`: a `uint64_t` accumulator
that starts at 0 and adds `static_cast<uint64_t>(pr.second)`. -/
def weight_sum (D : DoubleOps W) (counts : count_t W) : Nat :=
  counts.foldl (fun cur pr => (cur + D.toU64 pr.2) % U64) 0

/-- The loop of `write_compressed` over the entries `1 .. size - 1`:
`cur_id` is the key of the previous entry, the gap is the `uint64_t`
difference. -/
def write_gaps (D : DoubleOps W) (tag : FeatureValue) :
    Nat → List (pair_t W) → compressed_file_writer W → compressed_file_writer W
  | _, [], writer => writer
  | cur_id, (k, w) :: rest, writer =>
    write_gaps D tag k rest (write_weight D tag (writer.write ((k + U64 - cur_id) % U64)) w)

/-- The member `write_compressed<FeatureValue>(writer)`; `none` when
`mutable_counts[0]` is out of range. The size is a `size_t`, written as it is. -/
def write_compressed (D : DoubleOps W) (tag : FeatureValue) (x : postings_data P W)
    (writer : compressed_file_writer W) : Option (compressed_file_writer W) :=
  let writer1 := writer.write x.counts_.length
  let writer2 := writer1.write (weight_sum D x.counts_)
  match sparse_vector.contents x.counts_ with
  | [] => none
  | (k0, w0) :: rest =>
    some (write_gaps D tag k0 rest (write_weight D tag (writer2.write k0) w0))

/-- The branch on `std::is_same<FeatureValue, uint64_t>` of `read_compressed`. -/
def read_weight (D : DoubleOps W) (tag : FeatureValue) (reader : compressed_file_reader W) :
    Option (W × compressed_file_reader W) :=
  match tag with
  | FeatureValue.uint64_t =>
    match reader.next with
    | none => none
    | some (next, reader1) => some (D.ofU64 next, reader1)
  | FeatureValue.double => reader.next_double

/-- The loop of `read_compressed`: the first argument is the number of
entries still to read, `last_id` the running key. -/
def read_entries (D : DoubleOps W) (tag : FeatureValue) :
    Nat → Nat → count_t W → compressed_file_reader W →
      Option (count_t W × compressed_file_reader W)
  | 0, _, counts, reader => some (counts, reader)
  | n + 1, last_id, counts, reader =>
    match reader.next with
    | none => none
    | some (this_id, reader1) =>
      match read_weight D tag reader1 with
      | none => none
      | some (count, reader2) =>
        read_entries D tag n ((last_id + this_id) % U64)
          (sparse_vector.emplace_back counts ((last_id + this_id) % U64, count)) reader2

/-- The member `read_compressed<FeatureValue>(reader)`; `none` when the
stream ends early or holds a value of the other kind. -/
def read_compressed (D : DoubleOps W) (tag : FeatureValue) (x : postings_data P W)
    (reader : compressed_file_reader W) :
    Option (postings_data P W × compressed_file_reader W) :=
  match reader.next with
  | none => none
  | some (size, reader1) =>
    match reader1.next with
    | none => none
    | some (_, reader2) =>
      match read_entries D tag size 0 [] reader2 with
      | none => none
      | some (counts, reader3) => some ({ x with counts_ := counts }, reader3)

end postings_data

/-! ## Predicates of the claims -/

/-- The secondary keys of a count store, in storage order. -/
def keys {W : Type} (v : count_t W) : List Nat := v.map Prod.fst

/-- Sorted ascending with unique keys. -/
def SortedKeys {W : Type} (v : count_t W) : Prop := (keys v).Sorted (· < ·)

instance {W : Type} (v : count_t W) : Decidable (SortedKeys v) := by
  unfold SortedKeys; infer_instance

/-- Every key is a value of `uint64_t`. -/
def KeysU64 {W : Type} (v : count_t W) : Prop := ∀ p ∈ v, p.1 < U64

instance {W : Type} (v : count_t W) : Decidable (KeysU64 v) := by
  unfold KeysU64; infer_instance

/-- The value that `write_compressed` emits for a weight under a tag. -/
def weight_value {W : Type} (D : DoubleOps W) (tag : FeatureValue) (w : W) : stream_value W :=
  match tag with
  | FeatureValue.uint64_t => stream_value.uint (D.toU64 w)
  | FeatureValue.double => stream_value.real w

/-- The weight that `read_compressed` rebuilds from `weight_value`: the weight
itself under the floating tag, the weight truncated to an unsigned integer
(and cast back) under the integer tag. -/
def decoded_weight {W : Type} (D : DoubleOps W) (tag : FeatureValue) (w : W) : W :=
  match tag with
  | FeatureValue.uint64_t => D.ofU64 (D.toU64 w)
  | FeatureValue.double => w

/-- The values emitted by the loop of `write_compressed`, as a list. -/
def gap_stream {W : Type} (D : DoubleOps W) (tag : FeatureValue) :
    Nat → List (pair_t W) → List (stream_value W)
  | _, [] => []
  | cur_id, (k, w) :: rest =>
    stream_value.uint ((k + U64 - cur_id) % U64) :: weight_value D tag w :: gap_stream D tag k rest

/-- The wire layout in the words of the specification: the entry count, the
weight aggregate, the first key as its absolute value, the first weight, then
for each later entry the gap `key[i] - key[i-1]` followed by `weight[i]`. -/
def wire_layout {W : Type} (D : DoubleOps W) (tag : FeatureValue) (aggregate : Nat)
    (v : count_t W) : List (stream_value W) :=
  match v with
  | [] => []
  | (k0, w0) :: rest =>
    [stream_value.uint v.length, stream_value.uint aggregate, stream_value.uint k0,
      weight_value D tag w0]
    ++ ((keys v).zip rest).flatMap
        (fun e => [stream_value.uint (e.2.1 - e.1), weight_value D tag e.2.2])

/-- The comparison `operator<=` of `double` on the multiples of one half. -/
def Half.le (a b : Half) : Prop := a.halves ≤ b.halves

/-- Every weight of the store is non-negative: `le` is `operator<=` on
`double` and `D.zero` is 0.0. These are the weights on which
`static_cast<uint64_t>` is applied by the claims about the aggregate. -/
def NonNegativeWeights {W : Type} (D : DoubleOps W) (le : W → W → Prop) (v : count_t W) : Prop :=
  ∀ e ∈ v, le D.zero e.2

/-- The aggregate in the words of the specification: the weights are totalled
and the total is coerced to an unsigned integer. -/
def weight_total_coerced {W : Type} (D : DoubleOps W) (v : count_t W) : Nat :=
  D.toU64 (v.foldl (fun acc p => D.add acc p.2) D.zero)

/-- The effect of one entry `p` of `other` on an entry `q` of `self` in
`merge_with`: the weight of `p` is added when the keys are equal. -/
def bump {W : Type} (D : DoubleOps W) (p q : pair_t W) : pair_t W :=
  if q.1 = p.1 then (q.1, D.add q.2 p.2) else q

/-- The effect of all entries of `other`, in order, on an entry `q` of `self`. -/
def accumulate {W : Type} (D : DoubleOps W) (other : count_t W) (q : pair_t W) : pair_t W :=
  other.foldl (fun acc p => bump D p acc) q

/-- The store of `self` at the end of the loop of `merge_with`, before the
final sort: the entries of `self` with the weights of `other` added, followed
by the entries of `other` whose key `self` does not hold. -/
def merged {W : Type} (D : DoubleOps W) (F other : count_t W) : count_t W :=
  F.map (accumulate D other) ++ other.filter (fun p => decide (p.1 ∉ keys F))

/-- The instances obtained from a newly constructed one by `increase_count`,
by either variant of `set_counts` on a key-unique input in arbitrary order,
and by `merge_with` with an operand obtained the same way. -/
inductive Built {P W : Type} (D : DoubleOps W) : postings_data P W → Prop where
  | new (p : P) : Built D (postings_data.new p)
  | increase_count {x : postings_data P W} (s : Nat) (a : W) :
      Built D x → Built D (postings_data.increase_count D x s a)
  | set_counts {x : postings_data P W} (seq : count_t W) :
      Built D x → (keys seq).Nodup → Built D (postings_data.set_counts x seq)
  | set_counts_range {x : postings_data P W} (range : count_t W) :
      Built D x → (keys range).Nodup → Built D (postings_data.set_counts_range x range)
  | merge_with {x y : postings_data P W} :
      Built D x → Built D y → Built D (postings_data.merge_with D x y)

/-- As `Built`, except that the streaming `set_counts` is only applied to a
range that continues the store in strictly ascending key order. -/
inductive BuiltAscending {P W : Type} (D : DoubleOps W) : postings_data P W → Prop where
  | new (p : P) : BuiltAscending D (postings_data.new p)
  | increase_count {x : postings_data P W} (s : Nat) (a : W) :
      BuiltAscending D x → BuiltAscending D (postings_data.increase_count D x s a)
  | set_counts {x : postings_data P W} (seq : count_t W) :
      BuiltAscending D x → (keys seq).Nodup → BuiltAscending D (postings_data.set_counts x seq)
  | set_counts_range {x : postings_data P W} (range : count_t W) :
      BuiltAscending D x → SortedKeys (x.counts_ ++ range) →
        BuiltAscending D (postings_data.set_counts_range x range)
  | merge_with {x y : postings_data P W} :
      BuiltAscending D x → BuiltAscending D y →
        BuiltAscending D (postings_data.merge_with D x y)

/-- The loop of `write_compressed` with its element accesses spelled out: the
first number is the count of iterations left (`size - i`), `i` the loop index,
`cur_id` the previous key; `none` when `mutable_counts[i]` is out of range. -/
def write_gaps_checked {W : Type} (D : DoubleOps W) (tag : FeatureValue)
    (mutable_counts : count_t W) :
    Nat → Nat → Nat → compressed_file_writer W → Option (compressed_file_writer W)
  | 0, _, _, writer => some writer
  | left + 1, i, cur_id, writer =>
    match mutable_counts.get? i with
    | none => none
    | some (k, w) =>
      write_gaps_checked D tag mutable_counts left (i + 1) k
        (postings_data.write_weight D tag (writer.write ((k + U64 - cur_id) % U64)) w)

/-- The member `write_compressed<FeatureValue>(writer)` with every element
access of `mutable_counts` by index: entry 0 first, then the entries
`1 .. size - 1` of the loop; `none` when an access is out of range. -/
def write_compressed_checked {P W : Type} (D : DoubleOps W) (tag : FeatureValue)
    (x : postings_data P W) (writer : compressed_file_writer W) :
    Option (compressed_file_writer W) :=
  let writer1 := writer.write x.counts_.length
  let writer2 := writer1.write (postings_data.weight_sum D x.counts_)
  let mutable_counts := sparse_vector.contents x.counts_
  match mutable_counts.get? 0 with
  | none => none
  | some (k0, w0) =>
    write_gaps_checked D tag mutable_counts (mutable_counts.length - 1) 1 k0
      (postings_data.write_weight D tag (writer2.write k0) w0)

/-- The entries that the loop of `read_compressed` rebuilds from a sequence of
(key field, weight field) pairs, `dec` decoding a weight field: the running
total `last_id` grows by each key field in `uint64_t` arithmetic. -/
def rebuilt {W X : Type} (dec : X → W) : Nat → List (Nat × X) → count_t W
  | _, [] => []
  | last_id, (g, x) :: fields =>
    ((last_id + g) % U64, dec x) :: rebuilt dec ((last_id + g) % U64) fields

/-- The case distinction `std::is_same<T, std::string>` of the two overloads
of `length`: the primary key type is `std::string`, with `size` the member
`size()`, or another type, with `sizeof_elem` its `sizeof`. -/
inductive key_type (P : Type) where
  | string (size : P → Nat)
  | other (sizeof_elem : Nat)

/-- The two overloads of `length` in the anonymous namespace: `elem.size()`
for a `std::string`, `sizeof(elem)` for every other type. -/
def length {P : Type} (T : key_type P) (elem : P) : Nat :=
  match T with
  | key_type.string size => size elem
  | key_type.other sizeof_elem => sizeof_elem

/-- A `std::unordered_map<K, V>`, as the value stored under each key, if any. -/
abbrev unordered_map (K V : Type) : Type := K → Option V

/-- A default-constructed `std::unordered_map`: no key is present. -/
def unordered_map.empty {K V : Type} : unordered_map K V := fun _ => none

/-- The call `m[k]` of `std::unordered_map::operator[]` as an access: an absent
key is inserted with the value-initialised `zero`. -/
def unordered_map.subscript {K V : Type} [DecidableEq K] (zero : V) (m : unordered_map K V)
    (k : K) : unordered_map K V :=
  match m k with
  | some _ => m
  | none => Function.update m k (some zero)

/-- The assignment `m[k] = v`. -/
def unordered_map.assign {K V : Type} [DecidableEq K] (m : unordered_map K V) (k : K) (v : V) :
    unordered_map K V :=
  Function.update m k (some v)

/-- The body of the inner loop of `select_simple::select`: `weight` is
`calc_weight(t, c)`, and `feature_weights[t]` is raised to it when smaller. -/
def select_simple.select_step {T C V : Type} [DecidableEq T] [LinearOrder V] (zero : V)
    (calc_weight : T → C → V) (c : C) (feature_weights : unordered_map T V) (t : T) :
    unordered_map T V :=
  if ((unordered_map.subscript zero feature_weights t) t).getD zero < calc_weight t c then
    unordered_map.assign (unordered_map.subscript zero feature_weights t) t (calc_weight t c)
  else unordered_map.subscript zero feature_weights t

/-- The map `feature_weights` of `select_simple::select` after its two loops,
`class_space` and `term_space` in their iteration order. -/
def select_simple.feature_weights {T C V : Type} [DecidableEq T] [LinearOrder V] (zero : V)
    (calc_weight : T → C → V) (class_space : List C) (term_space : List T) :
    unordered_map T V :=
  class_space.foldl
    (fun m c => term_space.foldl (select_simple.select_step zero calc_weight c) m)
    unordered_map.empty

/-- The member `select_simple::select()`: `sort_terms(feature_weights)`. -/
def select_simple.select {T C V R : Type} [DecidableEq T] [LinearOrder V] (zero : V)
    (sort_terms : unordered_map T V → R) (calc_weight : T → C → V) (class_space : List C)
    (term_space : List T) : R :=
  sort_terms (select_simple.feature_weights zero calc_weight class_space term_space)

/-- The map `weights` of one iteration of `select_simple::select_by_class`:
`weights[t] = calc_weight(t, c)` for every term. -/
def select_simple.weights {T C V : Type} [DecidableEq T] (calc_weight : T → C → V) (c : C)
    (term_space : List T) : unordered_map T V :=
  term_space.foldl (fun m t => unordered_map.assign m t (calc_weight t c)) unordered_map.empty

/-- The member `select_simple::select_by_class()`:
`features[c] = sort_terms(weights)` for every class. -/
def select_simple.select_by_class {T C V R : Type} [DecidableEq T] [DecidableEq C]
    (sort_terms : unordered_map T V → R) (calc_weight : T → C → V) (class_space : List C)
    (term_space : List T) : unordered_map C R :=
  class_space.foldl
    (fun features c =>
      unordered_map.assign features c (sort_terms (select_simple.weights calc_weight c term_space)))
    unordered_map.empty

/-- The weight of a term in the words of the claim: the greatest of 0 and the
weights `calc_weight(t, c)` over all classes. -/
def max_weight {T C V : Type} [LinearOrder V] (zero : V) (calc_weight : T → C → V)
    (class_space : List C) (t : T) : V :=
  (class_space.map (calc_weight t)).foldr max zero

open postings_data

/-! ## The codec -/

section codec

variable {P W : Type}

theorem write_weight_eq (D : DoubleOps W) (tag : FeatureValue)
    (writer : compressed_file_writer W) (w : W) :
    write_weight D tag writer w = writer ++ [weight_value D tag w] := by
  cases tag <;> rfl

theorem write_gaps_eq (D : DoubleOps W) (tag : FeatureValue) (rest : List (pair_t W)) :
    ∀ (cur_id : Nat) (writer : compressed_file_writer W),
      write_gaps D tag cur_id rest writer = writer ++ gap_stream D tag cur_id rest := by
  induction rest with
  | nil => intro cur_id writer; simp [write_gaps, gap_stream]
  | cons e rest ih =>
    intro cur_id writer
    obtain ⟨k, w⟩ := e
    simp [write_gaps, gap_stream, ih, write_weight_eq, compressed_file_writer.write]

theorem write_compressed_cons (D : DoubleOps W) (tag : FeatureValue) (p : P) (k0 : Nat) (w0 : W)
    (rest : List (pair_t W)) (writer : compressed_file_writer W) :
    write_compressed D tag ⟨p, (k0, w0) :: rest⟩ writer
      = some (writer ++ (stream_value.uint (rest.length + 1)
          :: stream_value.uint (weight_sum D ((k0, w0) :: rest))
          :: stream_value.uint k0 :: weight_value D tag w0 :: gap_stream D tag k0 rest)) := by
  simp [write_compressed, sparse_vector.contents, write_gaps_eq, write_weight_eq,
    compressed_file_writer.write]

theorem gap_stream_sorted (D : DoubleOps W) (tag : FeatureValue) (rest : List (pair_t W)) :
    ∀ (k0 : Nat) (w0 : W), SortedKeys ((k0, w0) :: rest) → KeysU64 ((k0, w0) :: rest) →
      gap_stream D tag k0 rest
        = ((keys ((k0, w0) :: rest)).zip rest).flatMap
            (fun e => [stream_value.uint (e.2.1 - e.1), weight_value D tag e.2.2]) := by
  induction rest with
  | nil => intro k0 w0 _ _; simp [gap_stream, keys]
  | cons e rest ih =>
    intro k0 w0 hs hk
    obtain ⟨k, w⟩ := e
    have hlt : k0 < k := by
      have := hs
      simp [SortedKeys, keys] at this
      exact this.1.1
    have hk1 : k < U64 := hk (k, w) (by simp)
    have hs1 : SortedKeys ((k, w) :: rest) := by
      simp only [SortedKeys, keys, List.map_cons, List.sorted_cons] at hs ⊢
      exact hs.2
    have hk2 : KeysU64 ((k, w) :: rest) := fun q hq => hk q (List.mem_cons_of_mem _ hq)
    have hgap : (k + U64 - k0) % U64 = k - k0 := by
      simp only [U64] at hk1 ⊢
      omega
    have := ih k w hs1 hk2
    simp only [keys, List.map_cons] at this ⊢
    simp [gap_stream, hgap, this]

theorem weight_sum_eq (D : DoubleOps W) (v : count_t W) :
    weight_sum D v = (v.map (fun p => D.toU64 p.2)).sum % U64 := by
  have key : ∀ (l : count_t W) (a : Nat),
      l.foldl (fun cur pr => (cur + D.toU64 pr.2) % U64) a % U64
        = (a + (l.map (fun p => D.toU64 p.2)).sum) % U64 := by
    intro l
    induction l with
    | nil => intro a; simp
    | cons e l ih =>
      intro a
      simp only [List.foldl_cons, List.map_cons, List.sum_cons]
      rw [ih, Nat.add_mod, Nat.mod_mod, ← Nat.add_mod, Nat.add_assoc]
  have h0 : ∀ (l : count_t W) (a : Nat), a < U64 →
      l.foldl (fun cur pr => (cur + D.toU64 pr.2) % U64) a < U64 := by
    intro l
    induction l with
    | nil => intro a ha; simpa using ha
    | cons e l ih =>
      intro a _
      exact ih _ (Nat.mod_lt _ (by simp [U64]))
  have := key v 0
  rw [Nat.mod_eq_of_lt (h0 v 0 (by simp [U64]))] at this
  simpa [weight_sum] using this

theorem read_weight_value (D : DoubleOps W) (tag : FeatureValue) (w : W)
    (more : compressed_file_reader W) :
    read_weight D tag (weight_value D tag w :: more) = some (decoded_weight D tag w, more) := by
  cases tag <;> rfl

theorem read_entries_gap_stream (D : DoubleOps W) (tag : FeatureValue) (rest : List (pair_t W)) :
    ∀ (cur_id : Nat) (acc : count_t W) (more : compressed_file_reader W),
      cur_id < U64 → KeysU64 rest →
      read_entries D tag rest.length cur_id acc (gap_stream D tag cur_id rest ++ more)
        = some (acc ++ rest.map (fun e => (e.1, decoded_weight D tag e.2)), more) := by
  induction rest with
  | nil => intro cur_id acc more _ _; simp [read_entries, gap_stream]
  | cons e rest ih =>
    intro cur_id acc more hc hk
    obtain ⟨k, w⟩ := e
    have hk1 : k < U64 := hk (k, w) (by simp)
    have hk2 : KeysU64 rest := fun q hq => hk q (List.mem_cons_of_mem _ hq)
    have hsum : (cur_id + (k + U64 - cur_id) % U64) % U64 = k := by
      simp only [U64] at hk1 hc ⊢
      omega
    simp [read_entries, gap_stream, compressed_file_reader.next, read_weight_value, hsum,
      sparse_vector.emplace_back, ih k _ more hk1 hk2]

/-- Round trip of the codec on a store with at least one entry, in any key
order: reading what `write_compressed` wrote rebuilds the keys in order and
the weights as decoded under the tag, and consumes exactly what was written. -/
theorem read_write_compressed (D : DoubleOps W) (tag : FeatureValue) (p q : P) (k0 : Nat) (w0 : W)
    (rest prior : count_t W) (more : compressed_file_reader W)
    (hk : KeysU64 ((k0, w0) :: rest)) :
    ∃ stream, write_compressed D tag ⟨p, (k0, w0) :: rest⟩ [] = some stream ∧
      read_compressed D tag ⟨q, prior⟩ (stream ++ more)
        = some (⟨q, ((k0, w0) :: rest).map (fun e => (e.1, decoded_weight D tag e.2))⟩, more) := by
  refine ⟨_, write_compressed_cons D tag p k0 w0 rest [], ?_⟩
  have hk1 : k0 < U64 := hk (k0, w0) (by simp)
  have hk2 : KeysU64 rest := fun e he => hk e (List.mem_cons_of_mem _ he)
  have h0 : k0 % U64 = k0 := Nat.mod_eq_of_lt hk1
  have := read_entries_gap_stream D tag rest k0 [(k0, decoded_weight D tag w0)] more hk1 hk2
  simp [read_compressed, compressed_file_reader.next, read_entries, read_weight_value, h0,
    sparse_vector.emplace_back, this]

theorem wire_layout_length (D : DoubleOps W) (tag : FeatureValue) (aggregate : Nat)
    (v : count_t W) (hne : v ≠ []) : (wire_layout D tag aggregate v).length = 2 + 2 * v.length := by
  cases v with
  | nil => exact absurd rfl hne
  | cons e rest =>
    obtain ⟨k0, w0⟩ := e
    have hlen : ∀ (l : List (Nat × pair_t W)),
        (l.flatMap (fun e => [stream_value.uint (e.2.1 - e.1), weight_value D tag e.2.2])).length
          = 2 * l.length := by
      intro l
      induction l with
      | nil => simp
      | cons a l ih => simp [List.flatMap_cons, ih]; omega
    simp only [wire_layout, List.length_append, hlen, List.length_zip, keys, List.length_map,
      List.length_cons, List.length_nil]
    omega

/-- C1 (failing input): on a newly constructed instance, whose store is empty,
`write_compressed` reads `mutable_counts[0]` out of range under either tag, so
it produces no stream that `read_compressed` could turn back into the store;
on every store with at least one entry of 64-bit keys the round trip holds:
the keys come back in order, the weights as written under the floating tag
and truncated to unsigned integers under the integer tag. -/
theorem C1_round_trip_except_empty_store (D : DoubleOps W) (tag : FeatureValue) (p q : P)
    (writer : compressed_file_writer W) (k0 : Nat) (w0 : W) (rest prior : count_t W)
    (more : compressed_file_reader W) :
    write_compressed D tag (postings_data.new p) writer = none
      ∧ (KeysU64 ((k0, w0) :: rest) →
          ∃ stream, write_compressed D tag ⟨p, (k0, w0) :: rest⟩ [] = some stream ∧
            read_compressed D tag ⟨q, prior⟩ (stream ++ more)
              = some (⟨q, ((k0, w0) :: rest).map (fun e => (e.1, decoded_weight D tag e.2))⟩,
                  more)) :=
  ⟨rfl, fun hk => read_write_compressed D tag p q k0 w0 rest prior more hk⟩

theorem C1_round_trip_except_empty_store_witness :
    ∃ stream, write_compressed halfOps FeatureValue.uint64_t
        (⟨0, [(10, 3), (12, 1), (20, 2)]⟩ : postings_data Nat Half) [] = some stream ∧
      read_compressed halfOps FeatureValue.uint64_t (⟨4, [(7, 7)]⟩ : postings_data Nat Half)
          (stream ++ [stream_value.uint 5])
        = some (⟨4, [(10, 3), (12, 1), (20, 2)].map
            (fun e => (e.1, decoded_weight halfOps FeatureValue.uint64_t e.2))⟩,
            [stream_value.uint 5]) :=
  (C1_round_trip_except_empty_store halfOps FeatureValue.uint64_t 0 4 [] 10 3
    [(12, 1), (20, 2)] [(7, 7)] [stream_value.uint 5]).2 (by decide)

/-- C5: for a store with at least one entry, sorted ascending with unique
64-bit keys, `write_compressed` appends to the writer exactly the wire layout
of the specification (entry count, weight aggregate, first key, first weight,
then gap and weight of every later entry), which is `2 + 2 n` values; the store
{(10,3),(12,1),(20,2)} with the integer tag emits 3, 6, 10, 3, 2, 1, 8, 2. -/
theorem C5_write_compressed_layout (D : DoubleOps W) (tag : FeatureValue) (p : P)
    (v : count_t W) (writer : compressed_file_writer W)
    (hne : v ≠ []) (hs : SortedKeys v) (hk : KeysU64 v) :
    write_compressed D tag ⟨p, v⟩ writer
        = some (writer ++ wire_layout D tag (weight_sum D v) v)
      ∧ (wire_layout D tag (weight_sum D v) v).length = 2 + 2 * v.length
      ∧ write_compressed halfOps FeatureValue.uint64_t
          (⟨0, [(10, 3), (12, 1), (20, 2)]⟩ : postings_data Nat Half) []
        = some [stream_value.uint 3, stream_value.uint 6, stream_value.uint 10,
            stream_value.uint 3, stream_value.uint 2, stream_value.uint 1,
            stream_value.uint 8, stream_value.uint 2] := by
  refine ⟨?_, wire_layout_length D tag _ v hne, by decide⟩
  cases v with
  | nil => exact absurd rfl hne
  | cons e rest =>
    obtain ⟨k0, w0⟩ := e
    rw [write_compressed_cons, gap_stream_sorted D tag rest k0 w0 hs hk]
    simp [wire_layout]

theorem C5_write_compressed_layout_witness :
    write_compressed halfOps FeatureValue.double
        (⟨7, [(10, 3), (12, Half.half), (20, 2)]⟩ : postings_data Nat Half) [stream_value.uint 9]
      = some ([stream_value.uint 9] ++ wire_layout halfOps FeatureValue.double
          (weight_sum halfOps [(10, 3), (12, Half.half), (20, 2)])
          [(10, 3), (12, Half.half), (20, 2)]) :=
  (C5_write_compressed_layout halfOps FeatureValue.double 7
    [(10, 3), (12, Half.half), (20, 2)] [stream_value.uint 9]
    (by decide) (by decide) (by decide)).1

/-- C6 (counterexample): for the store {(1,0.5),(2,0.5)} the second value
emitted is 0, while the total of the weights, 1.0, coerced to an unsigned
integer is 1. -/
theorem C6_counterexample :
    (write_compressed halfOps FeatureValue.double
        (⟨0, [(1, Half.half), (2, Half.half)]⟩ : postings_data Nat Half) []).map
        (fun out => out.get? 1) = some (some (stream_value.uint 0))
      ∧ weight_total_coerced halfOps [(1, Half.half), (2, Half.half)] = 1 := by
  decide

/-- C6 (amended): for every store with non-negative weights, the aggregate
that `write_compressed` computes is the sum, modulo 2^64, of the weights each
coerced to an unsigned integer on its own, and when the store has at least one
entry that aggregate is the second value emitted, under either tag. -/
theorem C6_weight_aggregate (D : DoubleOps W) (tag : FeatureValue) (p : P) (v : count_t W)
    (writer : compressed_file_writer W) (le : W → W → Prop)
    (_hnn : NonNegativeWeights D le v) :
    weight_sum D v = (v.map (fun e => D.toU64 e.2)).sum % U64
      ∧ (v ≠ [] → ∃ out, write_compressed D tag ⟨p, v⟩ writer = some (writer ++ out)
          ∧ out.get? 1 = some (stream_value.uint (weight_sum D v))) := by
  refine ⟨weight_sum_eq D v, fun hne => ?_⟩
  cases v with
  | nil => exact absurd rfl hne
  | cons e rest =>
    obtain ⟨k0, w0⟩ := e
    exact ⟨_, write_compressed_cons D tag p k0 w0 rest writer, rfl⟩

theorem C6_weight_aggregate_witness :
    NonNegativeWeights halfOps Half.le [(1, Half.half), (2, Half.half), (4, 3)]
    ∧ ∃ out, write_compressed halfOps FeatureValue.uint64_t
        (⟨0, [(1, Half.half), (2, Half.half), (4, 3)]⟩ : postings_data Nat Half) []
          = some ([] ++ out)
      ∧ out.get? 1 = some (stream_value.uint
          (weight_sum halfOps [(1, Half.half), (2, Half.half), (4, 3)])) :=
  ⟨fun _ _ => Nat.zero_le _,
   (C6_weight_aggregate halfOps FeatureValue.uint64_t 0
    [(1, Half.half), (2, Half.half), (4, 3)] [] Half.le (fun _ _ => Nat.zero_le _)).2
    (by decide)⟩

theorem gap_stream_getElem (D : DoubleOps W) (tag : FeatureValue) (rest : List (pair_t W)) :
    ∀ (k0 : Nat) (w0 : W), SortedKeys ((k0, w0) :: rest) → KeysU64 ((k0, w0) :: rest) →
      ∀ j, j < rest.length → ∃ a b,
        (keys ((k0, w0) :: rest))[j]? = some a ∧ (keys ((k0, w0) :: rest))[j + 1]? = some b
          ∧ a < b ∧ b < U64 ∧ (b + U64 - a) % U64 = b - a
          ∧ (gap_stream D tag k0 rest)[2 * j]? = some (stream_value.uint (b - a)) := by
  induction rest with
  | nil => intro k0 w0 _ _ j hj; simp at hj
  | cons e rest ih =>
    intro k0 w0 hs hk j hj
    obtain ⟨k, w⟩ := e
    have hlt : k0 < k := by
      have := hs
      simp [SortedKeys, keys] at this
      exact this.1.1
    have hk1 : k < U64 := hk (k, w) (by simp)
    have hs1 : SortedKeys ((k, w) :: rest) := by
      simp only [SortedKeys, keys, List.map_cons, List.sorted_cons] at hs ⊢
      exact hs.2
    have hk2 : KeysU64 ((k, w) :: rest) := fun q hq => hk q (List.mem_cons_of_mem _ hq)
    have hgap : (k + U64 - k0) % U64 = k - k0 := by
      simp only [U64] at hk1 ⊢
      omega
    cases j with
    | zero =>
      exact ⟨k0, k, by simp [keys], by simp [keys], hlt, hk1, hgap, by simp [gap_stream, hgap]⟩
    | succ j =>
      obtain ⟨a, b, ha, hb, hab, hbu, hmod, hget⟩ :=
        ih k w hs1 hk2 j (by simpa using hj)
      refine ⟨a, b, ?_, ?_, hab, hbu, hmod, ?_⟩
      · simpa [keys] using ha
      · simpa [keys] using hb
      · have h2 : 2 * (j + 1) = 2 * j + 1 + 1 := by omega
        rw [h2]
        simpa [gap_stream] using hget

/-- C11: for a store sorted ascending with unique 64-bit keys and at least two
entries, the value that `write_compressed` writes at the gap position of every
entry `i = j + 1 >= 1` is `key[i] - key[i-1]`, which is strictly positive,
below 2^64, and equal to the difference that the source computes in 64-bit
unsigned arithmetic, so nothing wraps around. -/
theorem C11_gaps_positive (D : DoubleOps W) (tag : FeatureValue) (p : P) (v : count_t W)
    (writer : compressed_file_writer W) (hs : SortedKeys v) (hk : KeysU64 v)
    (h2 : 2 ≤ v.length) :
    ∃ out, write_compressed D tag ⟨p, v⟩ writer = some (writer ++ out) ∧
      ∀ j, j + 1 < v.length → ∃ a b,
        (keys v)[j]? = some a ∧ (keys v)[j + 1]? = some b
          ∧ 0 < b - a ∧ a + (b - a) = b ∧ b - a < U64 ∧ (b + U64 - a) % U64 = b - a
          ∧ out[2 * (j + 1) + 2]? = some (stream_value.uint (b - a)) := by
  cases v with
  | nil => simp at h2
  | cons e rest =>
    obtain ⟨k0, w0⟩ := e
    refine ⟨_, write_compressed_cons D tag p k0 w0 rest writer, ?_⟩
    intro j hj
    obtain ⟨a, b, ha, hb, hab, hbu, hmod, hget⟩ :=
      gap_stream_getElem D tag rest k0 w0 hs hk j (by simpa using hj)
    refine ⟨a, b, ha, hb, by omega, by omega, by omega, hmod, ?_⟩
    have h4 : 2 * (j + 1) + 2 = 2 * j + 1 + 1 + 1 + 1 := by omega
    rw [h4]
    simpa using hget

theorem C11_gaps_positive_witness :
    ∃ out, write_compressed halfOps FeatureValue.uint64_t
        (⟨0, [(10, 3), (12, 1), (20, 2)]⟩ : postings_data Nat Half) [] = some ([] ++ out) ∧
      ∀ j, j + 1 < ([(10, 3), (12, 1), (20, 2)] : count_t Half).length → ∃ a b,
        (keys ([(10, 3), (12, 1), (20, 2)] : count_t Half))[j]? = some a
          ∧ (keys ([(10, 3), (12, 1), (20, 2)] : count_t Half))[j + 1]? = some b
          ∧ 0 < b - a ∧ a + (b - a) = b ∧ b - a < U64 ∧ (b + U64 - a) % U64 = b - a
          ∧ out[2 * (j + 1) + 2]? = some (stream_value.uint (b - a)) :=
  C11_gaps_positive halfOps FeatureValue.uint64_t 0 [(10, 3), (12, 1), (20, 2)] []
    (by decide) (by decide) (by decide)

theorem write_gaps_checked_eq (D : DoubleOps W) (tag : FeatureValue) (rest : count_t W) :
    ∀ (front : count_t W) (cur_id : Nat) (writer : compressed_file_writer W),
      write_gaps_checked D tag (front ++ rest) rest.length front.length cur_id writer
        = some (write_gaps D tag cur_id rest writer) := by
  induction rest with
  | nil => intro front cur_id writer; simp [write_gaps_checked, write_gaps]
  | cons e rest ih =>
    intro front cur_id writer
    obtain ⟨k, w⟩ := e
    have hget : (front ++ (k, w) :: rest).get? front.length = some (k, w) := by
      rw [List.get?_eq_getElem?, List.getElem?_append_right (Nat.le_refl _), Nat.sub_self]
      exact List.getElem?_cons_zero
    have hih := ih (front ++ [(k, w)]) k
      (write_weight D tag (writer.write ((k + U64 - cur_id) % U64)) w)
    simp only [List.append_assoc, List.singleton_append, List.length_append,
      List.length_singleton] at hih
    simp only [List.length_cons, write_gaps_checked, hget, write_gaps]
    exact hih

theorem write_compressed_checked_eq (D : DoubleOps W) (tag : FeatureValue)
    (x : postings_data P W) (writer : compressed_file_writer W) :
    write_compressed_checked D tag x writer = write_compressed D tag x writer := by
  obtain ⟨p, v⟩ := x
  cases v with
  | nil => rfl
  | cons e rest =>
    obtain ⟨k0, w0⟩ := e
    have := write_gaps_checked_eq D tag rest [(k0, w0)] k0
      (write_weight D tag (((writer.write (rest.length + 1)).write
        (weight_sum D ((k0, w0) :: rest))).write k0) w0)
    simpa [write_compressed_checked, write_compressed, sparse_vector.contents] using this

/-- C17: in `write_compressed` with every element access checked, entry 0 is
read unconditionally; on every store with at least one entry all accesses
(index 0 and the loop indices `1 .. n-1`) are in range and the output is that
of `write_compressed`, and an access is out of range exactly on the empty
store. -/
theorem C17_write_compressed_accesses (D : DoubleOps W) (tag : FeatureValue)
    (x : postings_data P W) (writer : compressed_file_writer W) :
    (x.counts_ ≠ [] → ∃ out, write_compressed_checked D tag x writer = some out
        ∧ write_compressed D tag x writer = some out)
      ∧ (write_compressed_checked D tag x writer = none ↔ x.counts_ = []) := by
  obtain ⟨p, v⟩ := x
  rw [write_compressed_checked_eq]
  cases v with
  | nil => exact ⟨fun h => absurd rfl h, by simp [write_compressed, sparse_vector.contents]⟩
  | cons e rest =>
    obtain ⟨k0, w0⟩ := e
    refine ⟨fun _ => ⟨_, write_compressed_cons D tag p k0 w0 rest writer,
      write_compressed_cons D tag p k0 w0 rest writer⟩, ?_⟩
    simp [write_compressed_cons]

theorem C17_write_compressed_accesses_witness :
    ∃ out, write_compressed_checked halfOps FeatureValue.double
        (⟨0, [(10, 3), (12, Half.half), (20, 2)]⟩ : postings_data Nat Half) [] = some out
      ∧ write_compressed halfOps FeatureValue.double
        (⟨0, [(10, 3), (12, Half.half), (20, 2)]⟩ : postings_data Nat Half) [] = some out :=
  (C17_write_compressed_accesses halfOps FeatureValue.double
    (⟨0, [(10, 3), (12, Half.half), (20, 2)]⟩ : postings_data Nat Half) []).1 (by decide)

theorem rebuilt_length {X : Type} (dec : X → W) (fields : List (Nat × X)) :
    ∀ last, (rebuilt dec last fields).length = fields.length := by
  induction fields with
  | nil => intro last; rfl
  | cons f fields ih => intro last; obtain ⟨g, x⟩ := f; simp [rebuilt, ih]

theorem rebuilt_getElem {X : Type} (dec : X → W) (fields : List (Nat × X)) :
    ∀ (last i : Nat) (f : Nat × X), fields[i]? = some f →
      (rebuilt dec last fields)[i]?
        = some ((last + ((fields.take (i + 1)).map Prod.fst).sum) % U64, dec f.2) := by
  induction fields with
  | nil => intro last i f h; simp at h
  | cons e fields ih =>
    intro last i f h
    obtain ⟨g, x⟩ := e
    cases i with
    | zero =>
      simp only [List.getElem?_cons_zero, Option.some.injEq] at h
      subst h
      simp [rebuilt]
    | succ i =>
      simp only [List.getElem?_cons_succ] at h
      have := ih ((last + g) % U64) i f h
      simp only [rebuilt, List.getElem?_cons_succ, this, List.take_succ_cons, List.map_cons,
        List.sum_cons, Option.some.injEq, Prod.mk.injEq, and_true]
      simp only [U64]
      omega

theorem read_entries_fields {X : Type} (D : DoubleOps W) (tag : FeatureValue)
    (enc : X → stream_value W) (dec : X → W)
    (h : ∀ x more, read_weight D tag (enc x :: more) = some (dec x, more))
    (fields : List (Nat × X)) :
    ∀ (last : Nat) (acc : count_t W) (more : compressed_file_reader W),
      read_entries D tag fields.length last acc
          (fields.flatMap (fun f => [stream_value.uint f.1, enc f.2]) ++ more)
        = some (acc ++ rebuilt dec last fields, more) := by
  induction fields with
  | nil => intro last acc more; simp [read_entries, rebuilt]
  | cons f fields ih =>
    intro last acc more
    obtain ⟨g, x⟩ := f
    simp [read_entries, rebuilt, compressed_file_reader.next, h, sparse_vector.emplace_back, ih]

theorem read_compressed_fields {X : Type} (D : DoubleOps W) (tag : FeatureValue)
    (enc : X → stream_value W) (dec : X → W)
    (h : ∀ x more, read_weight D tag (enc x :: more) = some (dec x, more))
    (fields : List (Nat × X)) (q : P) (prior : count_t W) (aggregate : Nat)
    (more : compressed_file_reader W) :
    read_compressed D tag ⟨q, prior⟩
        (stream_value.uint fields.length :: stream_value.uint aggregate
          :: (fields.flatMap (fun f => [stream_value.uint f.1, enc f.2]) ++ more))
      = some (⟨q, rebuilt dec 0 fields⟩, more) := by
  have := read_entries_fields D tag enc dec h fields 0 [] more
  simp [read_compressed, compressed_file_reader.next, this]

/-- C12: from a stream holding a count `n`, one more unsigned value, and `n`
(key field, weight field) pairs, `read_compressed` leaves, whatever the
instance held and whatever the second value is, the primary key as it was and
a store of exactly `n` entries in stream order; entry `i` has as key the sum
of the key fields `0 .. i` modulo 2^64 and as weight the weight field `i`
decoded per the tag (cast from the unsigned integer, or the double itself). -/
theorem C12_read_compressed_rebuilds (D : DoubleOps W) (q : P) (prior : count_t W)
    (aggregate : Nat) (more : compressed_file_reader W) :
    (∀ fields : List (Nat × Nat), ∃ counts,
        read_compressed D FeatureValue.uint64_t ⟨q, prior⟩
            (stream_value.uint fields.length :: stream_value.uint aggregate
              :: (fields.flatMap (fun f => [stream_value.uint f.1, stream_value.uint f.2])
                ++ more))
          = some (⟨q, counts⟩, more)
        ∧ counts = rebuilt D.ofU64 0 fields
        ∧ counts.length = fields.length
        ∧ ∀ i f, fields[i]? = some f →
            counts[i]? = some (((fields.take (i + 1)).map Prod.fst).sum % U64, D.ofU64 f.2))
      ∧ (∀ fields : List (Nat × W), ∃ counts,
        read_compressed D FeatureValue.double ⟨q, prior⟩
            (stream_value.uint fields.length :: stream_value.uint aggregate
              :: (fields.flatMap (fun f => [stream_value.uint f.1, stream_value.real f.2])
                ++ more))
          = some (⟨q, counts⟩, more)
        ∧ counts = rebuilt id 0 fields
        ∧ counts.length = fields.length
        ∧ ∀ i f, fields[i]? = some f →
            counts[i]? = some (((fields.take (i + 1)).map Prod.fst).sum % U64, f.2)) := by
  constructor
  · intro fields
    refine ⟨_, read_compressed_fields D FeatureValue.uint64_t stream_value.uint D.ofU64
      (fun _ _ => rfl) fields q prior aggregate more, rfl, rebuilt_length _ _ _, ?_⟩
    intro i f hf
    simpa using rebuilt_getElem D.ofU64 fields 0 i f hf
  · intro fields
    refine ⟨_, read_compressed_fields D FeatureValue.double stream_value.real id
      (fun _ _ => rfl) fields q prior aggregate more, rfl, rebuilt_length _ _ _, ?_⟩
    intro i f hf
    simpa using rebuilt_getElem id fields 0 i f hf

theorem C12_read_compressed_rebuilds_witness :
    ∃ counts,
      read_compressed halfOps FeatureValue.uint64_t (⟨4, [(7, 7)]⟩ : postings_data Nat Half)
          (stream_value.uint ([(10, 3), (2, 1), (18446744073709551614, 2)] : List (Nat × Nat)).length
            :: stream_value.uint 99
            :: (([(10, 3), (2, 1), (18446744073709551614, 2)] : List (Nat × Nat)).flatMap
                (fun f => [stream_value.uint f.1, stream_value.uint f.2]) ++ []))
        = some (⟨4, counts⟩, [])
      ∧ counts = rebuilt halfOps.ofU64 0 [(10, 3), (2, 1), (18446744073709551614, 2)]
      ∧ counts.length = ([(10, 3), (2, 1), (18446744073709551614, 2)] : List (Nat × Nat)).length
      ∧ ∀ i f, ([(10, 3), (2, 1), (18446744073709551614, 2)] : List (Nat × Nat))[i]? = some f →
          counts[i]? = some
            (((([(10, 3), (2, 1), (18446744073709551614, 2)] : List (Nat × Nat)).take
              (i + 1)).map Prod.fst).sum % U64, halfOps.ofU64 f.2) :=
  (C12_read_compressed_rebuilds halfOps 4 [(7, 7)] 99 []).1
    [(10, 3), (2, 1), (18446744073709551614, 2)]

/-- C18: for every non-empty sequence of 64-bit keys in any order, ascending
or not, with or without repeats, `read_compressed` applied to the output of
`write_compressed` rebuilds the same keys in the same order: the gaps are
taken and added back modulo 2^64. -/
theorem C18_keys_without_sortedness (D : DoubleOps W) (tag : FeatureValue) (p q : P)
    (v prior : count_t W) (more : compressed_file_reader W)
    (hne : v ≠ []) (hk : KeysU64 v) :
    ∃ stream y, write_compressed D tag ⟨p, v⟩ [] = some stream
      ∧ read_compressed D tag ⟨q, prior⟩ (stream ++ more) = some (y, more)
      ∧ keys y.counts_ = keys v := by
  cases v with
  | nil => exact absurd rfl hne
  | cons e rest =>
    obtain ⟨k0, w0⟩ := e
    obtain ⟨stream, hw, hr⟩ := read_write_compressed D tag p q k0 w0 rest prior more hk
    refine ⟨stream, _, hw, hr, ?_⟩
    simp [keys, Function.comp]

theorem C18_keys_without_sortedness_witness :
    ∃ stream y, write_compressed halfOps FeatureValue.double
        (⟨0, [(10, 1), (3, 2), (3, 0), (18446744073709551615, Half.half), (0, 1)]⟩ :
          postings_data Nat Half) [] = some stream
      ∧ read_compressed halfOps FeatureValue.double (⟨1, [(9, 9)]⟩ : postings_data Nat Half)
          (stream ++ []) = some (y, [])
      ∧ keys y.counts_
          = keys ([(10, 1), (3, 2), (3, 0), (18446744073709551615, Half.half), (0, 1)] :
              count_t Half) :=
  C18_keys_without_sortedness halfOps FeatureValue.double 0 1
    [(10, 1), (3, 2), (3, 0), (18446744073709551615, Half.half), (0, 1)] [(9, 9)] []
    (by decide) (by decide)

end codec

/-! ## The count store -/

section count_store

variable {P W : Type}

theorem at_cons (k : Nat) (w : W) (rest : count_t W) (s : Nat) :
    sparse_vector.at_ ((k, w) :: rest) s
      = if k = s then Except.ok w else sparse_vector.at_ rest s := by
  by_cases h : k = s <;> simp [sparse_vector.at_, List.find?_cons, h]

theorem at_of_not_mem (v : count_t W) (s : Nat) (h : s ∉ keys v) :
    sparse_vector.at_ v s = Except.error LookupError.NotFound := by
  induction v with
  | nil => rfl
  | cons e rest ih =>
    obtain ⟨k, w⟩ := e
    simp only [keys, List.map_cons, List.mem_cons, not_or] at h
    rw [at_cons, if_neg (fun hk => h.1 hk.symm)]
    exact ih h.2

theorem at_of_mem_keys (v : count_t W) (s : Nat) (h : s ∈ keys v) :
    ∃ w, (s, w) ∈ v ∧ sparse_vector.at_ v s = Except.ok w := by
  induction v with
  | nil => simp [keys] at h
  | cons e rest ih =>
    obtain ⟨k, w⟩ := e
    rw [at_cons]
    by_cases hk : k = s
    · exact ⟨w, by simp [hk], by simp [hk]⟩
    · have hr : s ∈ keys rest := by
        simp only [keys, List.map_cons, List.mem_cons] at h
        rcases h with h | h
        · exact absurd h.symm hk
        · exact h
      obtain ⟨w1, hm, he⟩ := ih hr
      exact ⟨w1, List.mem_cons_of_mem _ hm, by simp [hk, he]⟩

theorem at_of_mem_nodup (v : count_t W) (s : Nat) (w : W) (hm : (s, w) ∈ v)
    (hu : (keys v).Nodup) : sparse_vector.at_ v s = Except.ok w := by
  induction v with
  | nil => simp at hm
  | cons e rest ih =>
    obtain ⟨k, w1⟩ := e
    simp only [keys, List.map_cons, List.nodup_cons] at hu
    rw [at_cons]
    rcases List.mem_cons.1 hm with h | h
    · cases h; simp
    · have hks : k ≠ s := by
        intro hk
        apply hu.1
        rw [hk]
        exact List.mem_map.2 ⟨(s, w), h, rfl⟩
      rw [if_neg hks]
      exact ih h hu.2

theorem sort_by_first_perm (v : count_t W) : (sort_by_first v).Perm v :=
  List.perm_insertionSort _ v

theorem sort_by_first_sorted (v : count_t W) (hu : (keys v).Nodup) :
    SortedKeys (sort_by_first v) := by
  haveI : IsTotal (pair_t W) (fun a b => a.1 ≤ b.1) := ⟨fun a b => Nat.le_total a.1 b.1⟩
  haveI : IsTrans (pair_t W) (fun a b => a.1 ≤ b.1) := ⟨fun _ _ _ h1 h2 => Nat.le_trans h1 h2⟩
  have h1 : (sort_by_first v).Sorted (fun a b => a.1 ≤ b.1) := List.sorted_insertionSort _ v
  have h2 : (keys (sort_by_first v)).Sorted (· ≤ ·) := by
    unfold keys
    exact List.pairwise_map.2 h1
  have h3 : (keys (sort_by_first v)).Nodup :=
    (((sort_by_first_perm v).map Prod.fst).nodup_iff).2 hu
  exact h2.lt_of_le h3

theorem at_subscript_other (D : DoubleOps W) (s : Nat) (f : W → W) (v : count_t W) (k : Nat)
    (hk : k ≠ s) :
    sparse_vector.at_ (sparse_vector.subscript D s f v) k = sparse_vector.at_ v k := by
  induction v with
  | nil => simp [sparse_vector.subscript, at_cons, Ne.symm hk, sparse_vector.at_]
  | cons e rest ih =>
    obtain ⟨k1, w1⟩ := e
    simp only [sparse_vector.subscript]
    by_cases h1 : k1 = s
    · rw [if_pos h1, at_cons, at_cons]
      have : k1 ≠ k := fun h => hk (h.symm.trans h1)
      simp [this]
    · rw [if_neg h1]
      by_cases h2 : s < k1
      · rw [if_pos h2, at_cons, if_neg (Ne.symm hk)]
      · rw [if_neg h2, at_cons, at_cons, ih]

theorem keys_subscript (D : DoubleOps W) (s : Nat) (f : W → W) (v : count_t W) (k : Nat) :
    k ∈ keys (sparse_vector.subscript D s f v) ↔ k = s ∨ k ∈ keys v := by
  induction v with
  | nil => simp [sparse_vector.subscript, keys]
  | cons e rest ih =>
    obtain ⟨k1, w1⟩ := e
    simp only [sparse_vector.subscript]
    by_cases h1 : k1 = s
    · rw [if_pos h1]
      simp only [keys, List.map_cons, List.mem_cons]
      constructor
      · rintro (h | h)
        · exact Or.inr (Or.inl h)
        · exact Or.inr (Or.inr h)
      · rintro (h | h | h)
        · exact Or.inl (h.trans h1.symm)
        · exact Or.inl h
        · exact Or.inr h
    · rw [if_neg h1]
      by_cases h2 : s < k1
      · rw [if_pos h2]
        simp [keys]
      · rw [if_neg h2]
        simp only [keys, List.map_cons, List.mem_cons] at ih ⊢
        rw [ih]
        tauto

theorem at_subscript_absent (D : DoubleOps W) (s : Nat) (f : W → W) (v : count_t W)
    (h : s ∉ keys v) :
    sparse_vector.at_ (sparse_vector.subscript D s f v) s = Except.ok (f D.zero) := by
  induction v with
  | nil => simp [sparse_vector.subscript, at_cons]
  | cons e rest ih =>
    obtain ⟨k1, w1⟩ := e
    simp only [keys, List.map_cons, List.mem_cons, not_or] at h
    have h1 : k1 ≠ s := fun hk => h.1 hk.symm
    simp only [sparse_vector.subscript, if_neg h1]
    by_cases h2 : s < k1
    · rw [if_pos h2, at_cons, if_pos rfl]
    · rw [if_neg h2, at_cons, if_neg h1]
      exact ih h.2

theorem at_subscript_present (D : DoubleOps W) (s : Nat) (f : W → W) (v : count_t W) (w : W)
    (hs : SortedKeys v) (hm : (s, w) ∈ v) :
    sparse_vector.at_ (sparse_vector.subscript D s f v) s = Except.ok (f w) := by
  induction v with
  | nil => simp at hm
  | cons e rest ih =>
    obtain ⟨k1, w1⟩ := e
    simp only [SortedKeys, keys, List.map_cons, List.sorted_cons] at hs
    simp only [sparse_vector.subscript]
    rcases List.mem_cons.1 hm with h | h
    · cases h
      rw [if_pos rfl, at_cons, if_pos rfl]
    · have hlt : k1 < s := hs.1 s (List.mem_map.2 ⟨(s, w), h, rfl⟩)
      rw [if_neg (Nat.ne_of_lt hlt), if_neg (Nat.lt_asymm hlt), at_cons,
        if_neg (Nat.ne_of_lt hlt)]
      exact ih hs.2 h

theorem sorted_subscript (D : DoubleOps W) (s : Nat) (f : W → W) (v : count_t W)
    (hs : SortedKeys v) : SortedKeys (sparse_vector.subscript D s f v) := by
  induction v with
  | nil => simp [sparse_vector.subscript, SortedKeys, keys]
  | cons e rest ih =>
    obtain ⟨k1, w1⟩ := e
    have hs0 := hs
    simp only [SortedKeys, keys, List.map_cons, List.sorted_cons] at hs
    simp only [sparse_vector.subscript]
    by_cases h1 : k1 = s
    · rw [if_pos h1]
      simpa [SortedKeys, keys] using hs
    · rw [if_neg h1]
      by_cases h2 : s < k1
      · rw [if_pos h2]
        simp only [SortedKeys, keys, List.map_cons, List.sorted_cons, List.mem_cons]
        refine ⟨?_, hs⟩
        rintro b (hb | hb)
        · exact hb ▸ h2
        · exact Nat.lt_trans h2 (hs.1 b hb)
      · rw [if_neg h2]
        have ih1 := ih hs.2
        simp only [SortedKeys, keys, List.map_cons, List.sorted_cons] at ih1 ⊢
        refine ⟨?_, ih1⟩
        intro b hb
        rcases (keys_subscript D s f rest b).1 hb with h | h
        · rw [h]; omega
        · exact hs.1 b h

/-- C8: on a store sorted ascending with unique keys, after
`increase_count(s, a)` the count of `s` is `0.0 + a` (which is `a`) if `s` was
absent and `old weight + a` if it was present; every other key keeps its
lookup result, the key set only gains `s`, and the store is still sorted
ascending with unique keys. -/
theorem C8_increase_count (D : DoubleOps W) (x : postings_data P W) (s : Nat) (a : W)
    (hs : SortedKeys x.counts_) :
    (s ∉ keys x.counts_ → count (increase_count D x s a) s = Except.ok (D.add D.zero a))
      ∧ (s ∉ keys x.counts_ → D.add D.zero a = a →
          count (increase_count D x s a) s = Except.ok a)
      ∧ (∀ w, (s, w) ∈ x.counts_ → count (increase_count D x s a) s = Except.ok (D.add w a))
      ∧ (∀ k, k ≠ s → count (increase_count D x s a) k = count x k)
      ∧ (∀ k, k ∈ keys (increase_count D x s a).counts_ ↔ k = s ∨ k ∈ keys x.counts_)
      ∧ SortedKeys (increase_count D x s a).counts_
      ∧ (increase_count D x s a).primary_key = x.primary_key := by
  refine ⟨fun h => at_subscript_absent D s _ _ h, fun h hz => ?_,
    fun w hm => at_subscript_present D s _ _ w hs hm,
    fun k hk => at_subscript_other D s _ _ k hk,
    fun k => keys_subscript D s _ _ k, sorted_subscript D s _ _ hs, rfl⟩
  have := at_subscript_absent D s (fun w => D.add w a) x.counts_ h
  simp only [hz] at this
  exact this

theorem C8_increase_count_witness :
    count (increase_count halfOps (⟨1, [(2, 5), (4, 0), (9, Half.half)]⟩ : postings_data Nat Half)
        3 Half.half) 3 = Except.ok Half.half
      ∧ count (increase_count halfOps
          (⟨1, [(2, 5), (4, 0), (9, Half.half)]⟩ : postings_data Nat Half) 9 2) 9
          = Except.ok (halfOps.add Half.half 2) :=
  ⟨(C8_increase_count halfOps (⟨1, [(2, 5), (4, 0), (9, Half.half)]⟩ : postings_data Nat Half)
      3 Half.half (by decide)).2.1 (by decide) (by decide),
   (C8_increase_count halfOps (⟨1, [(2, 5), (4, 0), (9, Half.half)]⟩ : postings_data Nat Half)
      9 2 (by decide)).2.2.1 Half.half (by decide)⟩

/-- C7: `count(s)` returns a weight stored under `s` when `s` is present (the
stored weight, when keys are unique) and fails with NotFound when `s` is
absent; a key stored with weight 0 returns 0, and `count(42)` on the empty
store fails with NotFound. -/
theorem C7_count_lookup (D : DoubleOps W) (x : postings_data P W) (s : Nat) :
    (s ∈ keys x.counts_ → ∃ w, (s, w) ∈ x.counts_ ∧ count x s = Except.ok w)
      ∧ (∀ w, (keys x.counts_).Nodup → (s, w) ∈ x.counts_ → count x s = Except.ok w)
      ∧ (s ∉ keys x.counts_ → count x s = Except.error LookupError.NotFound)
      ∧ count (⟨x.p_id_, [(s, D.zero)]⟩ : postings_data P W) s = Except.ok D.zero
      ∧ count (postings_data.new x.p_id_ : postings_data P W) 42
          = Except.error LookupError.NotFound := by
  refine ⟨at_of_mem_keys _ s, fun w hu hm => at_of_mem_nodup _ s w hm hu,
    at_of_not_mem _ s, ?_, rfl⟩
  simp [count, at_cons]

theorem C7_count_lookup_witness :
    count (⟨1, [(2, 5), (4, 0), (9, Half.half)]⟩ : postings_data Nat Half) 4 = Except.ok 0
      ∧ count (⟨1, [(2, 5), (4, 0), (9, Half.half)]⟩ : postings_data Nat Half) 5
          = Except.error LookupError.NotFound :=
  ⟨(C7_count_lookup halfOps (⟨1, [(2, 5), (4, 0), (9, Half.half)]⟩ : postings_data Nat Half)
      4).2.1 0 (by decide) (by decide),
   (C7_count_lookup halfOps (⟨1, [(2, 5), (4, 0), (9, Half.half)]⟩ : postings_data Nat Half)
      5).2.2.1 (by decide)⟩

/-- C9: bulk `set_counts(seq)` on a key-unique sequence in any order, whatever
the instance held before, followed by `counts()` returns exactly the entries
of `seq` with their weights, sorted ascending by key; the primary key is kept;
`set_counts([(5,1.0),(1,2.0),(3,3.0)])` gives `[(1,2.0),(3,3.0),(5,1.0)]`. -/
theorem C9_set_counts_bulk (x : postings_data P W) (seq : count_t W)
    (hu : (keys seq).Nodup) :
    (counts (set_counts x seq)).Perm seq
      ∧ SortedKeys (counts (set_counts x seq))
      ∧ (set_counts x seq).primary_key = x.primary_key
      ∧ counts (set_counts (⟨0, [(9, 9), (1, 7)]⟩ : postings_data Nat Half)
          [(5, 1), (1, 2), (3, 3)]) = [(1, 2), (3, 3), (5, 1)] :=
  ⟨sort_by_first_perm seq, sort_by_first_sorted seq hu, rfl, by decide⟩

theorem C9_set_counts_bulk_witness :
    (counts (set_counts (⟨4, [(8, 1)]⟩ : postings_data Nat Half)
        [(7, 2), (2, Half.half), (3, 0)])).Perm [(7, 2), (2, Half.half), (3, 0)]
      ∧ SortedKeys (counts (set_counts (⟨4, [(8, 1)]⟩ : postings_data Nat Half)
        [(7, 2), (2, Half.half), (3, 0)])) :=
  ⟨(C9_set_counts_bulk (⟨4, [(8, 1)]⟩ : postings_data Nat Half)
      [(7, 2), (2, Half.half), (3, 0)] (by decide)).1,
   (C9_set_counts_bulk (⟨4, [(8, 1)]⟩ : postings_data Nat Half)
      [(7, 2), (2, Half.half), (3, 0)] (by decide)).2.1⟩

/-- C10: `x == y` holds exactly when the primary keys are equal and `x < y`
exactly when the primary key of `x` is less than that of `y`, whatever the
counts; so two instances with the same primary key compare equal and neither
is less than the other. -/
theorem C10_comparison_by_primary_key [LinearOrder P] (x y : postings_data P W) :
    (op_eq x y = true ↔ x.primary_key = y.primary_key)
      ∧ (op_lt x y = true ↔ x.primary_key < y.primary_key)
      ∧ (x.primary_key = y.primary_key →
          op_eq x y = true ∧ op_lt x y = false ∧ op_lt y x = false) := by
  refine ⟨by simp [op_eq], by simp [op_lt], fun h => ?_⟩
  simp [op_eq, op_lt, h]

theorem C10_comparison_by_primary_key_witness :
    op_eq (⟨3, [(1, 2), (5, 1)]⟩ : postings_data Nat Half) ⟨3, [(7, Half.half)]⟩ = true
      ∧ op_lt (⟨3, [(1, 2), (5, 1)]⟩ : postings_data Nat Half) ⟨3, [(7, Half.half)]⟩ = false
      ∧ op_lt (⟨3, [(7, Half.half)]⟩ : postings_data Nat Half) ⟨3, [(1, 2), (5, 1)]⟩ = false :=
  (C10_comparison_by_primary_key (⟨3, [(1, 2), (5, 1)]⟩ : postings_data Nat Half)
    ⟨3, [(7, Half.half)]⟩).2.2 rfl

end count_store

/-! ## The merge -/

section merge

variable {P W : Type}

theorem lower_bound_loop_eq (v : count_t W) (s r last : Nat)
    (hlt : ∀ i p, i < r → v[i]? = some p → p.1 < s)
    (hge : ∀ i p, r ≤ i → i < last → v[i]? = some p → ¬ p.1 < s)
    (hlast : last ≤ v.length) :
    ∀ fuel first len, len ≤ fuel → first ≤ r → r ≤ first + len → first + len ≤ last →
      lower_bound_loop v s fuel first len = r := by
  intro fuel
  induction fuel with
  | zero =>
    intro first len h1 h2 h3 h4
    simp only [lower_bound_loop]
    omega
  | succ n ih =>
    intro first len h1 h2 h3 h4
    rw [lower_bound_loop]
    by_cases hl : len = 0
    · rw [if_pos hl]; omega
    · rw [if_neg hl, List.get?_eq_getElem?]
      have hmid : first + len / 2 < v.length := by omega
      cases hget : v[first + len / 2]? with
      | none =>
        have := List.getElem?_eq_none_iff.1 hget
        omega
      | some p =>
        simp only
        by_cases hp : p.1 < s
        · rw [if_pos hp]
          have hr : first + len / 2 < r := by
            by_contra hc
            exact hge _ p (by omega) (by omega) hget hp
          exact ih _ _ (by omega) (by omega) (by omega) (by omega)
        · rw [if_neg hp]
          have hr : r ≤ first + len / 2 := by
            by_contra hc
            exact hp (hlt _ p (by omega) hget)
          exact ih _ _ (by omega) (by omega) (by omega) (by omega)

theorem lower_bound_eq (A B T : count_t W) (s : Nat)
    (hA : ∀ p ∈ A, p.1 < s) (hB : ∀ p ∈ B, ¬ p.1 < s) :
    lower_bound (A ++ B ++ T) (A.length + B.length) s = A.length := by
  unfold lower_bound
  apply lower_bound_loop_eq (A ++ B ++ T) s A.length (A.length + B.length)
  · intro i p hi hp
    rw [List.append_assoc, List.getElem?_append_left hi] at hp
    exact hA p (List.getElem?_mem hp)
  · intro i p h1 h2 hp
    rw [List.append_assoc, List.getElem?_append_right h1,
      List.getElem?_append_left (by omega)] at hp
    exact hB p (List.getElem?_mem hp)
  · simp
  · exact Nat.le_refl _
  · omega
  · omega
  · omega

theorem sorted_split (F : count_t W) (s : Nat) (hs : SortedKeys F) :
    ∃ A B, F = A ++ B ∧ (∀ p ∈ A, p.1 < s) ∧ (∀ p ∈ B, s ≤ p.1) := by
  induction F with
  | nil => exact ⟨[], [], rfl, by simp, by simp⟩
  | cons e rest ih =>
    simp only [SortedKeys, keys, List.map_cons, List.sorted_cons] at hs
    by_cases h : e.1 < s
    · obtain ⟨A, B, hF, hA, hB⟩ := ih hs.2
      refine ⟨e :: A, B, by simp [hF], ?_, hB⟩
      intro p hp
      rcases List.mem_cons.1 hp with hp | hp
      · rw [hp]; exact h
      · exact hA p hp
    · refine ⟨[], e :: rest, rfl, by simp, ?_⟩
      intro p hp
      rcases List.mem_cons.1 hp with hp | hp
      · rw [hp]; omega
      · have := hs.1 p.1 (List.mem_map.2 ⟨p, hp, rfl⟩)
        omega

theorem map_bump_of_not_mem (D : DoubleOps W) (p : pair_t W) (l : count_t W)
    (h : p.1 ∉ keys l) : l.map (bump D p) = l := by
  have : ∀ q ∈ l, bump D p q = id q := by
    intro q hq
    have hne : q.1 ≠ p.1 := fun he => h (he ▸ List.mem_map.2 ⟨q, hq, rfl⟩)
    simp [bump, hne]
  rw [List.map_congr_left this, List.map_id]

theorem keys_map_bump (D : DoubleOps W) (p : pair_t W) (l : count_t W) :
    keys (l.map (bump D p)) = keys l := by
  unfold keys
  rw [List.map_map]
  apply List.map_congr_left
  intro q _
  simp only [Function.comp, bump]
  split <;> rfl

theorem getElem?_length_append_cons {α : Type} (A : List α) (b : α) (R : List α) :
    (A ++ b :: R)[A.length]? = some b := by
  rw [List.getElem?_append_right (Nat.le_refl _), Nat.sub_self]
  exact List.getElem?_cons_zero

theorem set_length_append_cons {α : Type} (A : List α) (b c : α) (R : List α) :
    (A ++ b :: R).set A.length c = A ++ c :: R := by
  rw [List.set_append_right _ _ (Nat.le_refl _)]
  simp

theorem merge_step_eq (D : DoubleOps W) (F T : count_t W) (p : pair_t W)
    (hs : SortedKeys F) (hT : p.1 ∉ keys T) :
    merge_step D F.length (F ++ T) p
      = if p.1 ∈ keys F then F.map (bump D p) ++ T else F ++ T ++ [p] := by
  obtain ⟨A, B, hF, hA, hB⟩ := sorted_split F p.1 hs
  subst hF
  have hlb : lower_bound (A ++ B ++ T) (A ++ B).length p.1 = A.length := by
    rw [List.length_append]
    exact lower_bound_eq A B T p.1 hA (fun q hq => by have := hB q hq; omega)
  have hpA : p.1 ∉ keys A := by
    intro h
    obtain ⟨q, hq, he⟩ := List.mem_map.1 h
    have := hA q hq
    have he1 : q.1 = p.1 := he
    omega
  unfold merge_step
  rw [hlb, List.get?_eq_getElem?]
  cases B with
  | nil =>
    simp only [List.append_nil] at hs ⊢
    rw [if_neg hpA]
    cases T with
    | nil => simp [sparse_vector.emplace_back]
    | cons t T1 =>
      rw [getElem?_length_append_cons]
      have ht : t.1 ≠ p.1 := by
        intro he
        apply hT
        simp [keys, he.symm]
      simp [ht, sparse_vector.emplace_back]
  | cons b B1 =>
    rw [List.append_assoc, List.cons_append, getElem?_length_append_cons]
    have hsB : ∀ q ∈ B1, b.1 < q.1 := by
      intro q hq
      simp only [SortedKeys, keys, List.map_append, List.map_cons] at hs
      have h2 := (List.pairwise_append.1 hs).2.1
      exact (List.pairwise_cons.1 h2).1 q.1 (List.mem_map.2 ⟨q, hq, rfl⟩)
    by_cases hb : b.1 = p.1
    · have hpB : p.1 ∉ keys B1 := by
        intro h
        obtain ⟨q, hq, he⟩ := List.mem_map.1 h
        have := hsB q hq
        have he1 : q.1 = p.1 := he
        omega
      have hin : p.1 ∈ keys (A ++ b :: B1) := by
        simp [keys, hb.symm]
      rw [if_pos hin]
      simp only [hb, ne_eq, not_true_eq_false, if_false]
      rw [set_length_append_cons, List.map_append, List.map_cons,
        map_bump_of_not_mem D p A hpA, map_bump_of_not_mem D p B1 hpB]
      simp [bump, hb]
    · have hpB : p.1 ∉ keys (b :: B1) := by
        intro h
        have hle := hB b (by simp)
        simp only [keys, List.map_cons, List.mem_cons] at h
        rcases h with h | h
        · exact hb h.symm
        · obtain ⟨q, hq, he⟩ := List.mem_map.1 h
          have := hsB q hq
          have he1 : q.1 = p.1 := he
          omega
      have hnin : p.1 ∉ keys (A ++ b :: B1) := by
        simp only [keys, List.map_append, List.mem_append, not_or]
        exact ⟨hpA, hpB⟩
      rw [if_neg hnin]
      simp [hb, sparse_vector.emplace_back]

theorem accumulate_cons (D : DoubleOps W) (p : pair_t W) (o : count_t W) (q : pair_t W) :
    accumulate D (p :: o) q = accumulate D o (bump D p q) := rfl

theorem accumulate_fst (D : DoubleOps W) (o : count_t W) :
    ∀ q : pair_t W, (accumulate D o q).1 = q.1 := by
  induction o with
  | nil => intro q; rfl
  | cons p o ih =>
    intro q
    rw [accumulate_cons, ih]
    simp only [bump]
    split <;> rfl

theorem accumulate_of_not_mem (D : DoubleOps W) (o : count_t W) :
    ∀ q : pair_t W, q.1 ∉ keys o → accumulate D o q = q := by
  induction o with
  | nil => intro q _; rfl
  | cons p o ih =>
    intro q hq
    simp only [keys, List.map_cons, List.mem_cons, not_or] at hq
    have hb : bump D p q = q := by simp [bump, hq.1]
    rw [accumulate_cons, hb]
    exact ih q hq.2

theorem accumulate_of_mem (D : DoubleOps W) (o : count_t W) (k : Nat) (w2 : W) :
    ∀ w1 : W, (keys o).Nodup → (k, w2) ∈ o → accumulate D o (k, w1) = (k, D.add w1 w2) := by
  induction o with
  | nil => intro w1 _ h; simp at h
  | cons p o ih =>
    intro w1 hu hm
    simp only [keys, List.map_cons, List.nodup_cons] at hu
    rw [accumulate_cons]
    rcases List.mem_cons.1 hm with h | h
    · subst h
      have hb : bump D (k, w2) (k, w1) = (k, D.add w1 w2) := by simp [bump]
      rw [hb]
      exact accumulate_of_not_mem D o _ hu.1
    · have hne : k ≠ p.1 := by
        intro he
        apply hu.1
        rw [← he]
        exact List.mem_map.2 ⟨(k, w2), h, rfl⟩
      have hb : bump D p (k, w1) = (k, w1) := by simp [bump, hne]
      rw [hb]
      exact ih w1 hu.2 h

theorem keys_map_accumulate (D : DoubleOps W) (o F : count_t W) :
    keys (F.map (accumulate D o)) = keys F := by
  unfold keys
  rw [List.map_map]
  apply List.map_congr_left
  intro q _
  exact accumulate_fst D o q

theorem merge_loop_eq (D : DoubleOps W) (other : count_t W) :
    ∀ (F T : count_t W), SortedKeys F → (keys other).Nodup → (∀ k ∈ keys other, k ∉ keys T) →
      other.foldl (merge_step D F.length) (F ++ T)
        = F.map (accumulate D other)
            ++ (T ++ other.filter (fun p => decide (p.1 ∉ keys F))) := by
  induction other with
  | nil =>
    intro F T _ _ _
    have hid : F.map (accumulate D []) = F :=
      (List.map_congr_left (fun q _ => (rfl : accumulate D [] q = id q))).trans (List.map_id F)
    simp [hid]
  | cons p o ih =>
    intro F T hs hu hT
    have hpT : p.1 ∉ keys T := hT p.1 (by simp [keys])
    simp only [keys, List.map_cons, List.nodup_cons] at hu
    have hTo : ∀ k ∈ keys o, k ∉ keys T := fun k hk => hT k (by
      simp only [keys, List.map_cons, List.mem_cons]
      exact Or.inr hk)
    rw [List.foldl_cons, merge_step_eq D F T p hs hpT]
    by_cases hin : p.1 ∈ keys F
    · rw [if_pos hin]
      have hlen : F.length = (F.map (bump D p)).length := by simp
      have hs1 : SortedKeys (F.map (bump D p)) := by
        rw [SortedKeys, keys_map_bump]; exact hs
      rw [hlen, ih (F.map (bump D p)) T hs1 hu.2 hTo, keys_map_bump, List.map_map,
        List.filter_cons_of_neg (by simpa using hin)]
      rfl
    · rw [if_neg hin, List.append_assoc, ih F (T ++ [p]) hs hu.2 ?_,
        List.filter_cons_of_pos (by simpa using hin)]
      · have hmap : F.map (accumulate D (p :: o)) = F.map (accumulate D o) := by
          apply List.map_congr_left
          intro q hq
          have hne : q.1 ≠ p.1 := fun he => hin (he ▸ List.mem_map.2 ⟨q, hq, rfl⟩)
          rw [accumulate_cons]
          simp [bump, hne]
        rw [hmap]
        simp
      · intro k hk
        simp only [keys, List.map_append, List.map_cons, List.map_nil, List.mem_append,
          List.mem_singleton, not_or]
        refine ⟨hTo k hk, ?_⟩
        intro he
        exact hu.1 (he ▸ hk)

theorem merge_loop_merged (D : DoubleOps W) (F other : count_t W) (hs : SortedKeys F)
    (hu : (keys other).Nodup) :
    other.foldl (merge_step D F.length) F = merged D F other := by
  have := merge_loop_eq D other F [] hs hu (by simp [keys])
  simpa [merged] using this

theorem merged_nodup (D : DoubleOps W) (F other : count_t W) (hs : SortedKeys F)
    (hu : (keys other).Nodup) : (keys (merged D F other)).Nodup := by
  have hF : (keys F).Nodup := by
    have : (keys F).Sorted (· < ·) := hs
    exact this.nodup
  have hsub : (keys (other.filter (fun p => decide (p.1 ∉ keys F)))).Nodup :=
    List.Nodup.sublist ((List.filter_sublist _).map Prod.fst) hu
  unfold merged
  have hk : keys (F.map (accumulate D other) ++ other.filter (fun p => decide (p.1 ∉ keys F)))
      = keys F ++ keys (other.filter (fun p => decide (p.1 ∉ keys F))) := by
    rw [← keys_map_accumulate D other F]
    simp [keys]
  rw [hk, List.nodup_append]
  refine ⟨hF, hsub, ?_⟩
  intro k hk1 hk2
  obtain ⟨q, hq, he⟩ := List.mem_map.1 hk2
  have := (List.mem_filter.1 hq).2
  simp only [decide_eq_true_eq] at this
  exact this (he ▸ hk1)

theorem merge_with_perm (D : DoubleOps W) (self other : postings_data P W)
    (hs : SortedKeys self.counts_) (hu : (keys other.counts_).Nodup) :
    (merge_with D self other).counts_.Perm (merged D self.counts_ other.counts_) := by
  unfold merge_with
  simp only [merge_loop_merged D _ _ hs hu]
  split
  · exact sort_by_first_perm _
  · exact List.Perm.refl _

theorem merge_with_sorted (D : DoubleOps W) (self other : postings_data P W)
    (hs : SortedKeys self.counts_) (hu : (keys other.counts_).Nodup) :
    SortedKeys (merge_with D self other).counts_ := by
  unfold merge_with
  simp only [merge_loop_merged D _ _ hs hu]
  split
  · exact sort_by_first_sorted _ (merged_nodup D _ _ hs hu)
  · rename_i hlen
    have hnil : other.counts_.filter (fun p => decide (p.1 ∉ keys self.counts_)) = [] := by
      apply List.eq_nil_of_length_eq_zero
      simp only [merged, List.length_append, List.length_map] at hlen
      omega
    show SortedKeys (merged D self.counts_ other.counts_)
    rw [merged, hnil, List.append_nil, SortedKeys, keys_map_accumulate]
    exact hs

/-- C2: with the store of `self` sorted ascending with unique keys and the
keys of `other` unique, a key `k` held by both with weights `w1` and `w2`
occurs exactly once in `self` after `self.merge_with(other)` and its count is
`w1 + w2`. -/
theorem C2_merge_with_adds_weights (D : DoubleOps W) (self other : postings_data P W)
    (k : Nat) (w1 w2 : W) (hs : SortedKeys self.counts_) (hu : (keys other.counts_).Nodup)
    (h1 : (k, w1) ∈ self.counts_) (h2 : (k, w2) ∈ other.counts_) :
    count (merge_with D self other) k = Except.ok (D.add w1 w2)
      ∧ (k, D.add w1 w2) ∈ (merge_with D self other).counts_
      ∧ (keys (merge_with D self other).counts_).count k = 1 := by
  have hperm := merge_with_perm D self other hs hu
  have hnd : (keys (merge_with D self other).counts_).Nodup :=
    ((hperm.map Prod.fst).nodup_iff).2 (merged_nodup D _ _ hs hu)
  have hmem : (k, D.add w1 w2) ∈ (merge_with D self other).counts_ := by
    apply hperm.mem_iff.2
    unfold merged
    apply List.mem_append_left
    exact List.mem_map.2 ⟨(k, w1), h1, accumulate_of_mem D _ k w2 w1 hu h2⟩
  refine ⟨at_of_mem_nodup _ k _ hmem hnd, hmem, List.count_eq_one_of_mem hnd ?_⟩
  exact List.mem_map.2 ⟨(k, D.add w1 w2), hmem, rfl⟩

theorem C2_merge_with_adds_weights_witness :
    count (merge_with halfOps (⟨0, [(1, 2), (5, 1)]⟩ : postings_data Nat Half)
        ⟨0, [(5, 3), (2, 4)]⟩) 5 = Except.ok (halfOps.add 1 3)
      ∧ (5, halfOps.add 1 3) ∈ (merge_with halfOps
        (⟨0, [(1, 2), (5, 1)]⟩ : postings_data Nat Half) ⟨0, [(5, 3), (2, 4)]⟩).counts_
      ∧ (keys (merge_with halfOps (⟨0, [(1, 2), (5, 1)]⟩ : postings_data Nat Half)
        ⟨0, [(5, 3), (2, 4)]⟩).counts_).count 5 = 1 :=
  C2_merge_with_adds_weights halfOps (⟨0, [(1, 2), (5, 1)]⟩ : postings_data Nat Half)
    ⟨0, [(5, 3), (2, 4)]⟩ 5 1 3 (by decide) (by decide) (by decide) (by decide)

/-- C3: with disjoint key sets, the store of `self` sorted ascending with
unique keys and the keys of `other` unique in any order, the store of `self`
after `self.merge_with(other)` holds exactly the entries of both operands, each
with its own weight, sorted ascending by key; so its keys are those of the two
operands and each key looks up the weight it had in its operand. -/
theorem C3_merge_with_disjoint (D : DoubleOps W) (self other : postings_data P W)
    (hs : SortedKeys self.counts_) (hu : (keys other.counts_).Nodup)
    (hd : ∀ k ∈ keys self.counts_, k ∉ keys other.counts_) :
    (merge_with D self other).counts_.Perm (self.counts_ ++ other.counts_)
      ∧ SortedKeys (merge_with D self other).counts_
      ∧ (∀ k, k ∈ keys (merge_with D self other).counts_
          ↔ k ∈ keys self.counts_ ∨ k ∈ keys other.counts_)
      ∧ (∀ e, e ∈ self.counts_ ++ other.counts_ →
          count (merge_with D self other) e.1 = Except.ok e.2) := by
  have hmerged : merged D self.counts_ other.counts_ = self.counts_ ++ other.counts_ := by
    unfold merged
    have h1 : self.counts_.map (accumulate D other.counts_) = self.counts_ := by
      have : ∀ q ∈ self.counts_, accumulate D other.counts_ q = id q := fun q hq =>
        accumulate_of_not_mem D _ q (hd q.1 (List.mem_map.2 ⟨q, hq, rfl⟩))
      exact (List.map_congr_left this).trans (List.map_id _)
    have h2 : other.counts_.filter (fun p => decide (p.1 ∉ keys self.counts_))
        = other.counts_ := by
      apply List.filter_eq_self.2
      intro q hq
      simp only [decide_eq_true_eq]
      intro hin
      exact hd q.1 hin (List.mem_map.2 ⟨q, hq, rfl⟩)
    rw [h1, h2]
  have hperm : (merge_with D self other).counts_.Perm (self.counts_ ++ other.counts_) :=
    hmerged ▸ merge_with_perm D self other hs hu
  have hsorted := merge_with_sorted D self other hs hu
  refine ⟨hperm, hsorted, ?_, ?_⟩
  · intro k
    have := (hperm.map Prod.fst).mem_iff (a := k)
    simpa [keys] using this
  · intro e he
    have hnd : (keys (merge_with D self other).counts_).Nodup := by
      have : (keys (merge_with D self other).counts_).Sorted (· < ·) := hsorted
      exact this.nodup
    exact at_of_mem_nodup _ e.1 e.2 (hperm.mem_iff.2 he) hnd

theorem C3_merge_with_disjoint_witness :
    (merge_with halfOps (⟨0, [(1, 2), (5, 1)]⟩ : postings_data Nat Half)
        ⟨0, [(9, 3), (2, Half.half)]⟩).counts_.Perm
      ([(1, 2), (5, 1)] ++ [(9, 3), (2, Half.half)])
      ∧ SortedKeys (merge_with halfOps (⟨0, [(1, 2), (5, 1)]⟩ : postings_data Nat Half)
        ⟨0, [(9, 3), (2, Half.half)]⟩).counts_ :=
  ⟨(C3_merge_with_disjoint halfOps (⟨0, [(1, 2), (5, 1)]⟩ : postings_data Nat Half)
      ⟨0, [(9, 3), (2, Half.half)]⟩ (by decide) (by decide) (by decide)).1,
   (C3_merge_with_disjoint halfOps (⟨0, [(1, 2), (5, 1)]⟩ : postings_data Nat Half)
      ⟨0, [(9, 3), (2, Half.half)]⟩ (by decide) (by decide) (by decide)).2.1⟩

theorem foldl_emplace_back (v range : count_t W) :
    range.foldl sparse_vector.emplace_back v = v ++ range := by
  induction range generalizing v with
  | nil => simp
  | cons e rest ih => simp [List.foldl_cons, ih, sparse_vector.emplace_back]

/-- C4 (counterexample): the streaming `set_counts` applied to a newly
constructed instance with the key-unique range [(5,1.0),(1,2.0)] leaves
`counts()` as [(5,1.0),(1,2.0)], which is not sorted ascending. -/
theorem C4_counterexample :
    Built halfOps (set_counts_range (postings_data.new 0 : postings_data Nat Half)
        [(5, 1), (1, 2)])
      ∧ counts (set_counts_range (postings_data.new 0 : postings_data Nat Half)
        [(5, 1), (1, 2)]) = [(5, 1), (1, 2)]
      ∧ ¬ SortedKeys (counts (set_counts_range (postings_data.new 0 : postings_data Nat Half)
        [(5, 1), (1, 2)])) :=
  ⟨Built.set_counts_range _ (Built.new 0) (by decide), by decide, by decide⟩

/-- C4 (amended): starting from a newly constructed instance, after any finite
sequence of `increase_count`, bulk `set_counts` on a key-unique input in
arbitrary order, streaming `set_counts` on a range that continues the store in
strictly ascending key order, and `merge_with` with an operand built the same
way, `counts()` is sorted strictly ascending by secondary key. -/
theorem C4_counts_sorted (D : DoubleOps W) (x : postings_data P W)
    (hx : BuiltAscending D x) : SortedKeys (counts x) := by
  induction hx with
  | new p => simp [counts, sparse_vector.contents, postings_data.new, SortedKeys, keys]
  | increase_count s a _ ih => exact sorted_subscript D s _ _ ih
  | set_counts seq _ hu _ => exact sort_by_first_sorted seq hu
  | set_counts_range range _ hr _ =>
    show SortedKeys (range.foldl sparse_vector.emplace_back _)
    rw [foldl_emplace_back]
    exact hr
  | merge_with _ _ ihx ihy =>
    have hy : (keys _).Sorted (· < ·) := ihy
    exact merge_with_sorted D _ _ ihx hy.nodup

theorem C4_counts_sorted_witness :
    SortedKeys (counts (merge_with halfOps
      (increase_count halfOps
        (set_counts (postings_data.new 0 : postings_data Nat Half) [(5, 1), (1, 2)]) 3 Half.half)
      (set_counts_range (postings_data.new 0 : postings_data Nat Half) [(2, 4), (5, 3)]))) :=
  C4_counts_sorted halfOps _
    (BuiltAscending.merge_with
      (BuiltAscending.increase_count 3 Half.half
        (BuiltAscending.set_counts [(5, 1), (1, 2)] (BuiltAscending.new 0) (by decide)))
      (BuiltAscending.set_counts_range [(2, 4), (5, 3)] (BuiltAscending.new 0) (by decide)))

/-- C13: `merge_with` is a total function that never looks at a primary key:
whatever primary key `other` carries, the store of `self` after the merge is
the same, and the primary key of `self` is unchanged. -/
theorem C13_merge_with_ignores_primary_keys (D : DoubleOps W) (self other : postings_data P W)
    (p : P) :
    (merge_with D self other).counts_ = (merge_with D self ⟨p, other.counts_⟩).counts_
      ∧ (merge_with D self other).counts_
          = (merge_with D self ⟨self.primary_key, other.counts_⟩).counts_
      ∧ (merge_with D self other).primary_key = self.primary_key := by
  refine ⟨rfl, rfl, ?_⟩
  simp only [merge_with, primary_key]
  split <;> rfl

theorem keys_merged (D : DoubleOps W) (F other : count_t W) :
    keys (merged D F other)
      = keys F ++ keys (other.filter (fun p => decide (p.1 ∉ keys F))) := by
  unfold merged
  rw [← keys_map_accumulate D other F]
  simp [keys]

theorem mem_keys_merged (D : DoubleOps W) (F other : count_t W) (k : Nat) :
    k ∈ keys (merged D F other) ↔ k ∈ keys F ∨ k ∈ keys other := by
  rw [keys_merged, List.mem_append]
  constructor
  · rintro (h | h)
    · exact Or.inl h
    · obtain ⟨q, hq, he⟩ := List.mem_map.1 h
      exact Or.inr (List.mem_map.2 ⟨q, (List.mem_filter.1 hq).1, he⟩)
  · rintro (h | h)
    · exact Or.inl h
    · by_cases hF : k ∈ keys F
      · exact Or.inl hF
      · obtain ⟨q, hq, he⟩ := List.mem_map.1 h
        refine Or.inr (List.mem_map.2 ⟨q, List.mem_filter.2 ⟨hq, ?_⟩, he⟩)
        have he1 : q.1 = k := he
        simpa [he1] using hF

theorem merge_with_no_new_key (D : DoubleOps W) (self other : postings_data P W)
    (hs : SortedKeys self.counts_) (hu : (keys other.counts_).Nodup)
    (hsub : ∀ k ∈ keys other.counts_, k ∈ keys self.counts_) :
    (merge_with D self other).counts_ = self.counts_.map (accumulate D other.counts_) := by
  have hnil : other.counts_.filter (fun p => decide (p.1 ∉ keys self.counts_)) = [] := by
    apply List.filter_eq_nil_iff.2
    intro q hq
    simpa using hsub q.1 (List.mem_map.2 ⟨q, hq, rfl⟩)
  have hm : merged D self.counts_ other.counts_
      = self.counts_.map (accumulate D other.counts_) := by
    rw [merged, hnil, List.append_nil]
  unfold merge_with
  simp only [merge_loop_merged D _ _ hs hu, hm, List.length_map, gt_iff_lt, lt_self_iff_false,
    if_false]

/-- C15: with the store of `self` sorted ascending with unique keys and the
keys of `other` unique in any order, after `self.merge_with(other)` the store
of `self` is sorted strictly ascending with unique keys and its keys are
exactly those of the two operands; A = {(1,2.0),(5,1.0)} merged with
B = {(5,3.0),(2,4.0)} is {(1,2.0),(2,4.0),(5,4.0)}; when no key of `other` is
new, the keys of `self` and their order, hence the length, are unchanged. -/
theorem C15_merge_with_sorted_union (D : DoubleOps W) (self other : postings_data P W)
    (hs : SortedKeys self.counts_) (hu : (keys other.counts_).Nodup) :
    SortedKeys (merge_with D self other).counts_
      ∧ (∀ k, k ∈ keys (merge_with D self other).counts_
          ↔ k ∈ keys self.counts_ ∨ k ∈ keys other.counts_)
      ∧ ((∀ k ∈ keys other.counts_, k ∈ keys self.counts_) →
          keys (merge_with D self other).counts_ = keys self.counts_
            ∧ (merge_with D self other).counts_.length = self.counts_.length)
      ∧ (merge_with halfOps (⟨0, [(1, 2), (5, 1)]⟩ : postings_data Nat Half)
          ⟨0, [(5, 3), (2, 4)]⟩).counts_ = [(1, 2), (2, 4), (5, 4)] := by
  refine ⟨merge_with_sorted D self other hs hu, fun k => ?_, fun hsub => ?_, by decide⟩
  · rw [← mem_keys_merged D self.counts_ other.counts_ k]
    have := ((merge_with_perm D self other hs hu).map Prod.fst).mem_iff (a := k)
    simpa [keys] using this
  · rw [merge_with_no_new_key D self other hs hu hsub]
    exact ⟨keys_map_accumulate D _ _, List.length_map _ _⟩

theorem C15_merge_with_sorted_union_witness :
    SortedKeys (merge_with halfOps (⟨0, [(1, 2), (5, 1), (8, 0)]⟩ : postings_data Nat Half)
        ⟨3, [(9, 3), (5, Half.half), (2, 4)]⟩).counts_
      ∧ keys (merge_with halfOps (⟨0, [(1, 2), (5, 1), (8, 0)]⟩ : postings_data Nat Half)
        ⟨3, [(8, 3), (1, Half.half)]⟩).counts_ = keys ([(1, 2), (5, 1), (8, 0)] : count_t Half) :=
  ⟨(C15_merge_with_sorted_union halfOps
      (⟨0, [(1, 2), (5, 1), (8, 0)]⟩ : postings_data Nat Half)
      ⟨3, [(9, 3), (5, Half.half), (2, 4)]⟩ (by decide) (by decide)).1,
   ((C15_merge_with_sorted_union halfOps
      (⟨0, [(1, 2), (5, 1), (8, 0)]⟩ : postings_data Nat Half)
      ⟨3, [(8, 3), (1, Half.half)]⟩ (by decide) (by decide)).2.2.1 (by decide)).1⟩

/-- C16: the streaming `set_counts(begin, end)` appends the entries of the
range to the back of the store in input order and sorts nothing: the store is
the previous entries followed by the range, its size the previous size plus
the length of the range, and the primary key is kept. -/
theorem C16_set_counts_range_appends (x : postings_data P W) (range : count_t W) :
    (set_counts_range x range).counts_ = x.counts_ ++ range
      ∧ (set_counts_range x range).counts_.length = x.counts_.length + range.length
      ∧ (set_counts_range x range).primary_key = x.primary_key := by
  have h : (set_counts_range x range).counts_ = x.counts_ ++ range :=
    foldl_emplace_back x.counts_ range
  exact ⟨h, by rw [h, List.length_append], rfl⟩

theorem mem_merged_iff (D : DoubleOps W) (F other : count_t W) (ho : (keys other).Nodup)
    (k : Nat) (x : W) :
    (k, x) ∈ merged D F other
      ↔ (∃ w w2, (k, w) ∈ F ∧ (k, w2) ∈ other ∧ x = D.add w w2)
        ∨ ((k, x) ∈ F ∧ k ∉ keys other) ∨ ((k, x) ∈ other ∧ k ∉ keys F) := by
  unfold merged
  rw [List.mem_append]
  constructor
  · rintro (h | h)
    · obtain ⟨q, hq, he⟩ := List.mem_map.1 h
      obtain ⟨k1, w⟩ := q
      have hk : k1 = k := by
        have := accumulate_fst D other (k1, w)
        rw [he] at this
        exact this.symm
      subst hk
      by_cases hin : k1 ∈ keys other
      · obtain ⟨q2, hq2, he2⟩ := List.mem_map.1 hin
        obtain ⟨k2, w2⟩ := q2
        have hk2 : k2 = k1 := he2
        subst hk2
        rw [accumulate_of_mem D other k2 w2 w ho hq2] at he
        exact Or.inl ⟨w, w2, hq, hq2, (Prod.mk.inj he).2.symm⟩
      · rw [accumulate_of_not_mem D other (k1, w) hin] at he
        exact Or.inr (Or.inl ⟨he ▸ hq, hin⟩)
    · have := List.mem_filter.1 h
      exact Or.inr (Or.inr ⟨this.1, by simpa using this.2⟩)
  · rintro (⟨w, w2, h1, h2, hx⟩ | ⟨h1, h2⟩ | ⟨h1, h2⟩)
    · exact Or.inl (List.mem_map.2 ⟨(k, w), h1, by rw [accumulate_of_mem D other k w2 w ho h2, hx]⟩)
    · exact Or.inl (List.mem_map.2 ⟨(k, x), h1, accumulate_of_not_mem D other (k, x) h2⟩)
    · exact Or.inr (List.mem_filter.2 ⟨h1, by simpa using h2⟩)

theorem merged_perm_comm (D : DoubleOps W) (A B : count_t W) (hA : SortedKeys A)
    (hB : SortedKeys B) (hcomm : ∀ a b, D.add a b = D.add b a) :
    (merged D A B).Perm (merged D B A) := by
  have hAn : (keys A).Nodup := List.Sorted.nodup hA
  have hBn : (keys B).Nodup := List.Sorted.nodup hB
  have h1 : (merged D A B).Nodup := List.Nodup.of_map Prod.fst (merged_nodup D A B hA hBn)
  have h2 : (merged D B A).Nodup := List.Nodup.of_map Prod.fst (merged_nodup D B A hB hAn)
  rw [List.perm_ext_iff_of_nodup h1 h2]
  rintro ⟨k, x⟩
  rw [mem_merged_iff D A B hBn, mem_merged_iff D B A hAn]
  constructor
  · rintro (⟨w, w2, h1, h2, hx⟩ | h | h)
    · exact Or.inl ⟨w2, w, h2, h1, by rw [hx, hcomm]⟩
    · exact Or.inr (Or.inr h)
    · exact Or.inr (Or.inl h)
  · rintro (⟨w, w2, h1, h2, hx⟩ | h | h)
    · exact Or.inl ⟨w2, w, h2, h1, by rw [hx, hcomm]⟩
    · exact Or.inr (Or.inr h)
    · exact Or.inr (Or.inl h)

theorem eq_of_perm_of_sorted_keys (u v : count_t W) (hp : u.Perm v) (hu : SortedKeys u)
    (hv : SortedKeys v) : u = v := by
  haveI : IsAntisymm (pair_t W) (fun a b => a.1 < b.1) :=
    ⟨fun _ _ h1 h2 => absurd h1 (Nat.lt_asymm h2)⟩
  have hu1 : u.Sorted (fun a b => a.1 < b.1) := List.pairwise_map.1 hu
  have hv1 : v.Sorted (fun a b => a.1 < b.1) := List.pairwise_map.1 hv
  exact List.eq_of_perm_of_sorted hp hu1 hv1

/-- C19: for two instances whose stores are both sorted ascending with unique
keys, and an addition of weights that is commutative (as that of `double`),
the store of A after `A.merge_with(B)` equals the store of B after
`B.merge_with(A)`, entry for entry. -/
theorem C19_merge_with_commutes (D : DoubleOps W) (A B : postings_data P W)
    (hA : SortedKeys A.counts_) (hB : SortedKeys B.counts_)
    (hcomm : ∀ a b, D.add a b = D.add b a) :
    (merge_with D A B).counts_ = (merge_with D B A).counts_ := by
  have hAn : (keys A.counts_).Nodup := List.Sorted.nodup hA
  have hBn : (keys B.counts_).Nodup := List.Sorted.nodup hB
  apply eq_of_perm_of_sorted_keys
  · exact ((merge_with_perm D A B hA hBn).trans
      (merged_perm_comm D A.counts_ B.counts_ hA hB hcomm)).trans
      (merge_with_perm D B A hB hAn).symm
  · exact merge_with_sorted D A B hA hBn
  · exact merge_with_sorted D B A hB hAn

theorem C19_merge_with_commutes_witness :
    (merge_with halfOps (⟨0, [(1, 2), (5, 1), (8, Half.half)]⟩ : postings_data Nat Half)
        ⟨3, [(2, 4), (5, 3)]⟩).counts_
      = (merge_with halfOps (⟨3, [(2, 4), (5, 3)]⟩ : postings_data Nat Half)
        ⟨0, [(1, 2), (5, 1), (8, Half.half)]⟩).counts_ :=
  C19_merge_with_commutes halfOps (⟨0, [(1, 2), (5, 1), (8, Half.half)]⟩ : postings_data Nat Half)
    ⟨3, [(2, 4), (5, 3)]⟩ (by decide) (by decide)
    (fun a b => by simp [halfOps, Nat.add_comm])

end merge

/-! ## Feature selection -/

section feature_select

variable {T C V R : Type}

theorem select_step_apply [DecidableEq T] [LinearOrder V] (zero : V) (calc_weight : T → C → V)
    (c : C) (m : unordered_map T V) (t0 t : T) :
    select_simple.select_step zero calc_weight c m t0 t
      = if t = t0 then some (max ((m t0).getD zero) (calc_weight t0 c)) else m t := by
  unfold select_simple.select_step unordered_map.subscript unordered_map.assign
  by_cases ht : t = t0
  · subst ht
    rw [if_pos rfl]
    cases hm : m t with
    | none =>
      simp only [Function.update_same, Option.getD_some, Option.getD_none]
      by_cases hlt : zero < calc_weight t c
      · simp [hlt, max_eq_right (le_of_lt hlt)]
      · simp [hlt, max_eq_left (not_lt.1 hlt)]
    | some a =>
      simp only [hm, Option.getD_some]
      by_cases hlt : a < calc_weight t c
      · simp [hlt, max_eq_right (le_of_lt hlt)]
      · simp [hlt, hm, max_eq_left (not_lt.1 hlt)]
  · rw [if_neg ht]
    cases hm : m t0 with
    | none =>
      simp only [Function.update_same, Option.getD_some]
      split <;> simp [Function.update_noteq ht]
    | some a =>
      simp only [hm, Option.getD_some]
      split <;> simp [Function.update_noteq ht]

theorem inner_loop_apply [DecidableEq T] [LinearOrder V] (zero : V) (calc_weight : T → C → V)
    (c : C) (term_space : List T) :
    ∀ (m : unordered_map T V) (t : T),
      term_space.foldl (select_simple.select_step zero calc_weight c) m t
        = if t ∈ term_space then some (max ((m t).getD zero) (calc_weight t c)) else m t := by
  induction term_space with
  | nil => intro m t; simp
  | cons t0 rest ih =>
    intro m t
    rw [List.foldl_cons, ih, select_step_apply]
    by_cases ht : t = t0
    · subst ht
      by_cases hr : t ∈ rest
      · simp [hr]
      · simp [hr]
    · by_cases hr : t ∈ rest
      · simp [hr, ht]
      · simp [hr, ht]

theorem outer_loop_not_mem [DecidableEq T] [LinearOrder V] (zero : V) (calc_weight : T → C → V)
    (term_space : List T) (t : T) (ht : t ∉ term_space) (class_space : List C) :
    ∀ m : unordered_map T V,
      class_space.foldl
          (fun m c => term_space.foldl (select_simple.select_step zero calc_weight c) m) m t
        = m t := by
  induction class_space with
  | nil => intro m; rfl
  | cons c cs ih =>
    intro m
    rw [List.foldl_cons, ih, inner_loop_apply, if_neg ht]

theorem outer_loop_mem [DecidableEq T] [LinearOrder V] (zero : V) (calc_weight : T → C → V)
    (term_space : List T) (t : T) (ht : t ∈ term_space) (class_space : List C) :
    ∀ m : unordered_map T V, class_space ≠ [] →
      class_space.foldl
          (fun m c => term_space.foldl (select_simple.select_step zero calc_weight c) m) m t
        = some (class_space.foldl (fun a c => max a (calc_weight t c)) ((m t).getD zero)) := by
  induction class_space with
  | nil => intro m h; exact absurd rfl h
  | cons c cs ih =>
    intro m _
    rw [List.foldl_cons, List.foldl_cons]
    by_cases hcs : cs = []
    · subst hcs
      simp [inner_loop_apply, ht]
    · rw [ih _ hcs, inner_loop_apply, if_pos ht]
      rfl

theorem foldr_max_comm [LinearOrder V] (l : List V) :
    ∀ a x : V, l.foldr max (max a x) = max x (l.foldr max a) := by
  induction l with
  | nil => intro a x; exact max_comm a x
  | cons y l ih =>
    intro a x
    rw [List.foldr_cons, List.foldr_cons, ih, max_left_comm]

theorem foldl_max_eq [LinearOrder V] (f : C → V) (l : List C) :
    ∀ a : V, l.foldl (fun a c => max a (f c)) a = (l.map f).foldr max a := by
  induction l with
  | nil => intro a; rfl
  | cons c l ih =>
    intro a
    rw [List.foldl_cons, ih, List.map_cons, List.foldr_cons, foldr_max_comm]

theorem max_weight_of_neg [LinearOrder V] (zero : V) (calc_weight : T → C → V) (t : T)
    (class_space : List C) (h : ∀ c ∈ class_space, calc_weight t c < zero) :
    max_weight zero calc_weight class_space t = zero := by
  unfold max_weight
  induction class_space with
  | nil => rfl
  | cons c cs ih =>
    rw [List.map_cons, List.foldr_cons, ih (fun c1 hc1 => h c1 (List.mem_cons_of_mem _ hc1))]
    exact max_eq_right (le_of_lt (h c (List.mem_cons_self _ _)))

theorem weights_apply [DecidableEq T] (calc_weight : T → C → V) (c : C) (term_space : List T) :
    ∀ (m : unordered_map T V) (t : T),
      term_space.foldl (fun m t => unordered_map.assign m t (calc_weight t c)) m t
        = if t ∈ term_space then some (calc_weight t c) else m t := by
  induction term_space with
  | nil => intro m t; simp
  | cons t0 rest ih =>
    intro m t
    rw [List.foldl_cons, ih]
    by_cases hr : t ∈ rest
    · simp [hr]
    · by_cases ht : t = t0
      · subst ht
        simp [hr, unordered_map.assign]
      · simp [hr, ht, unordered_map.assign, Function.update_noteq ht]

theorem features_apply [DecidableEq C] (g : C → R) (class_space : List C) :
    ∀ (m : unordered_map C R) (c : C),
      class_space.foldl (fun features c => unordered_map.assign features c (g c)) m c
        = if c ∈ class_space then some (g c) else m c := by
  induction class_space with
  | nil => intro m c; simp
  | cons c0 rest ih =>
    intro m c
    rw [List.foldl_cons, ih]
    by_cases hr : c ∈ rest
    · simp [hr]
    · by_cases hc : c = c0
      · subst hc
        simp [hr, unordered_map.assign]
      · simp [hr, hc, unordered_map.assign, Function.update_noteq hc]

theorem feature_weights_eq [DecidableEq T] [LinearOrder V] (zero : V)
    (calc_weight : T → C → V) (class_space : List C) (term_space : List T)
    (hne : class_space ≠ []) :
    select_simple.feature_weights zero calc_weight class_space term_space
      = fun t => if t ∈ term_space then some (max_weight zero calc_weight class_space t)
          else none := by
  funext t
  unfold select_simple.feature_weights
  by_cases ht : t ∈ term_space
  · rw [outer_loop_mem zero calc_weight term_space t ht class_space _ hne, if_pos ht,
      foldl_max_eq]
    rfl
  · rw [outer_loop_not_mem zero calc_weight term_space t ht class_space, if_neg ht]
    rfl

/-- C20: in `select()` the map handed to `sort_terms` is empty when the class
space is empty; otherwise its keys are exactly the terms of the term space and
each term maps to the greatest of 0 and its weights over all classes, so a
term whose weights are all negative maps to 0. In `select_by_class()` every
class of the class space maps to `sort_terms` of the map that sends each term
`t` of the term space to `calc_weight(t, c)`, and no other class is a key. -/
theorem C20_select_weight_maps [DecidableEq T] [DecidableEq C] [LinearOrder V] (zero : V)
    (sort_terms : unordered_map T V → R) (calc_weight : T → C → V) (class_space : List C)
    (term_space : List T) :
    select_simple.select zero sort_terms calc_weight [] term_space
        = sort_terms unordered_map.empty
      ∧ (class_space ≠ [] →
          select_simple.select zero sort_terms calc_weight class_space term_space
            = sort_terms (fun t =>
                if t ∈ term_space then some (max_weight zero calc_weight class_space t)
                else none))
      ∧ (class_space ≠ [] → ∀ t,
          select_simple.feature_weights zero calc_weight class_space term_space t ≠ none
            ↔ t ∈ term_space)
      ∧ (class_space ≠ [] → ∀ t ∈ term_space, (∀ c ∈ class_space, calc_weight t c < zero) →
          select_simple.feature_weights zero calc_weight class_space term_space t = some zero)
      ∧ (∀ c, select_simple.select_by_class sort_terms calc_weight class_space term_space c
          = if c ∈ class_space then
              some (sort_terms (fun t =>
                if t ∈ term_space then some (calc_weight t c) else none))
            else none) := by
  refine ⟨rfl, fun hne => ?_, fun hne t => ?_, fun hne t ht hneg => ?_, fun c => ?_⟩
  · unfold select_simple.select
    rw [feature_weights_eq zero calc_weight class_space term_space hne]
  · rw [feature_weights_eq zero calc_weight class_space term_space hne]
    by_cases ht : t ∈ term_space <;> simp [ht]
  · rw [feature_weights_eq zero calc_weight class_space term_space hne]
    simp only [if_pos ht]
    rw [max_weight_of_neg zero calc_weight t class_space hneg]
  · have hw : ∀ c1 : C, select_simple.weights calc_weight c1 term_space
        = fun t => if t ∈ term_space then some (calc_weight t c1) else none := by
      intro c1
      funext t
      unfold select_simple.weights
      rw [weights_apply]
      rfl
    unfold select_simple.select_by_class
    rw [features_apply (fun c1 => sort_terms (select_simple.weights calc_weight c1 term_space))]
    simp only [hw]
    rfl

theorem C20_select_weight_maps_witness :
    select_simple.feature_weights (0 : Int) (fun (t c : Nat) => (c : Int) - (t : Int))
        [0, 1, 3] [5, 6] 5 = some 0 :=
  (C20_select_weight_maps (0 : Int) (fun m : unordered_map Nat Int => m)
    (fun (t c : Nat) => (c : Int) - (t : Int)) [0, 1, 3] [5, 6]).2.2.2.1
    (by decide) 5 (by decide) (by decide)

end feature_select

end MetaIndex
